import Mathlib

/-!
Verification of the settings-reference generator
(scripts/generator/generate_zed_reference.py).

The development shallowly embeds the Python source:

* JSON-like runtime values become the inductive type `JValue`
  (with an extra constructor `other` for values of unsupported shape,
  matching the final else branch of `infer_type`);
* Python dictionaries become association lists `List (String × v)`
  with Python insertion/update semantics (`upsert`, `dictUpdate`:
  overwriting an existing key keeps its position, a new key is appended);
* `infer_type`, the category chain, the description string and the
  default-value rule are translated branch by branch from the source;
* `flatten_settings` is the recursive flattener; `flattenAux` carries
  the loop accumulator `settings` explicitly.
-/

set_option autoImplicit false

namespace ZedRef

/-- Runtime values of the parsed settings tree. `num` covers the Python
int-or-float case (both are classified as number by the source and both
are always included as defaults, so one numeric constructor is faithful
for every property proved here). `other` stands for a value of a shape
the source does not recognise (the final else branch of `infer_type`);
a generic Python object without special boolean conversion is truthy. -/
inductive JValue : Type where
  | null : JValue
  | bool : Bool → JValue
  | num : Int → JValue
  | str : String → JValue
  | arr : List JValue → JValue
  | obj : List (String × JValue) → JValue
  | other : JValue

/-- Python isinstance(value, bool). -/
def isinstance_bool : JValue → Bool
  | .bool _ => true
  | _ => false

/-- Python isinstance(value, (int, float)). In Python, bool is a subclass
of int, so booleans also satisfy this test; the source relies on testing
bool first. -/
def isinstance_int_float : JValue → Bool
  | .bool _ => true
  | .num _ => true
  | _ => false

/-- Python isinstance(value, str). -/
def isinstance_str : JValue → Bool
  | .str _ => true
  | _ => false

/-- Python isinstance(value, list). -/
def isinstance_list : JValue → Bool
  | .arr _ => true
  | _ => false

/-- Python isinstance(value, dict). -/
def isinstance_dict : JValue → Bool
  | .obj _ => true
  | _ => false

/-- Python truthiness of a value, as used by the default-value branches
(empty strings, arrays and dicts, zero, False and None are falsy). -/
def pyTruthy : JValue → Bool
  | .null => false
  | .bool b => b
  | .num n => n != 0
  | .str s => s != ""
  | .arr xs => !xs.isEmpty
  | .obj kvs => !kvs.isEmpty
  | .other => true

/-- Python identity test value is None. -/
def isNone : JValue → Bool
  | .null => true
  | _ => false

/-- Translation of infer_type: the isinstance chain of the source,
in source order. -/
def infer_type (value : JValue) : String :=
  if isinstance_bool value then "boolean"
  else if isinstance_int_float value then "number"
  else if isinstance_str value then "string"
  else if isinstance_list value then "array"
  else if isinstance_dict value then "object"
  else "string"

/-- Whether the list `needle` is a prefix of `hay` (character lists). -/
def prefixChars : List Char → List Char → Bool
  | [], _ => true
  | _ :: _, [] => false
  | a :: as, b :: bs => a == b && prefixChars as bs

/-- Whether `needle` occurs as a contiguous sublist of `hay`
(character lists). -/
def hasSubstr (needle : List Char) : List Char → Bool
  | [] => prefixChars needle []
  | c :: rest => prefixChars needle (c :: rest) || hasSubstr needle rest

/-- Python substring containment: needle in hay. -/
def strIn (needle hay : String) : Bool :=
  hasSubstr needle.data hay.data

/-- Translation of the category chain in flatten_settings: the first
matching substring test against the full dotted path wins. -/
def categoryOf (full_key : String) : String :=
  if strIn "font" full_key || strIn "text" full_key then "font"
  else if strIn "theme" full_key || strIn "color" full_key || strIn "appearance" full_key then "appearance"
  else if strIn "panel" full_key || strIn "dock" full_key || strIn "tab" full_key then "ui"
  else if strIn "git" full_key then "git"
  else if strIn "agent" full_key || strIn "ai" full_key then "ai"
  else if strIn "language" full_key || strIn "lsp" full_key then "language"
  else if strIn "key" full_key || strIn "vim" full_key || strIn "helix" full_key then "keybindings"
  else if strIn "scroll" full_key || strIn "cursor" full_key then "editor"
  else if strIn "diagnostic" full_key then "diagnostics"
  else if strIn "format" full_key || strIn "indent" full_key then "formatting"
  else "general"

/-- Python str.replace with a single-character pattern and a
single-character replacement, which is exactly per-character
substitution. The source only calls replace in this form. -/
def pyReplaceChar (s : String) (old new : Char) : String :=
  String.mk (s.data.map (fun c => if c = old then new else c))

/-- One flattened settings entry: the dictionary the source stores under
settings[full_key], with the optional default_value slot. -/
structure Entry : Type where
  name : String
  type : String
  description : String
  category : String
  default_value : Option JValue

/-- Construction of the entry stored by the else branch of the loop in
flatten_settings, including the conditional default_value assignment:
a default is stored only when the value is not None and the branch for
its inferred type fires (truthy string, any number or boolean, truthy
array). -/
def mkEntry (full_key : String) (value : JValue) : Entry :=
  let setting_type := infer_type value
  let dv : Option JValue :=
    match value with
    | .null => none
    | v =>
      if setting_type = "string" ∧ pyTruthy v then some v
      else if setting_type = "number" ∨ setting_type = "boolean" then some v
      else if setting_type = "array" ∧ pyTruthy v then some v
      else none
  { name := full_key, type := setting_type,
    description := "Configuration for " ++ pyReplaceChar (pyReplaceChar full_key '_' ' ') '.' ' ',
    category := categoryOf full_key, default_value := dv }

/-- The sentinel key list of the source. -/
def sentinel_keys : List String := ["mode", "light", "dark", "provider", "model"]

/-- Python any(k in sentinel_keys for k in value.keys()). -/
def hasSentinelKey (kvs : List (String × JValue)) : Bool :=
  kvs.any (fun p => sentinel_keys.contains p.1)

/-- Python full_key = prefix "." key if prefix is nonempty, else key. -/
def full_key_of (pfx key : String) : String :=
  if pfx = "" then key else pfx ++ "." ++ key

/-- Python dictionary assignment d[k] = v: overwriting an existing key
keeps its position, a new key is appended at the end. -/
def upsert (s : List (String × Entry)) (k : String) (v : Entry) : List (String × Entry) :=
  if s.any (fun p => p.1 == k) then
    s.map (fun p => if p.1 == k then (k, v) else p)
  else s ++ [(k, v)]

/-- Python d.update(t): assign every pair of t into d, in order. -/
def dictUpdate (s t : List (String × Entry)) : List (String × Entry) :=
  t.foldl (fun acc p => upsert acc p.1 p.2) s

/-- The loop of flatten_settings, with the mutable local dictionary
settings as an explicit accumulator: each pair either recurses
(a dict value none of whose own keys is a sentinel) or stores one entry
under its full key. -/
def flattenAux : List (String × JValue) → String → List (String × Entry) → List (String × Entry)
  | [], _, settings => settings
  | (key, JValue.obj kvs) :: rest, pfx, settings =>
    if hasSentinelKey kvs then
      flattenAux rest pfx (upsert settings (full_key_of pfx key) (mkEntry (full_key_of pfx key) (JValue.obj kvs)))
    else
      flattenAux rest pfx (dictUpdate settings (flattenAux kvs (full_key_of pfx key) []))
  | (key, value) :: rest, pfx, settings =>
    flattenAux rest pfx (upsert settings (full_key_of pfx key) (mkEntry (full_key_of pfx key) value))

/-- Translation of flatten_settings(obj, prefix): run the loop starting
from the empty dictionary. -/
def flatten_settings (obj : List (String × JValue)) (pfx : String) : List (String × Entry) :=
  flattenAux obj pfx []

/-- Models the dynamic behaviour of calling flatten_settings with a
root value that is not a dictionary: Python raises AttributeError as
soon as obj.items() is evaluated, before any entry is produced. -/
def flatten_settings_dyn (root : JValue) : Except String (List (String × Entry)) :=
  match root with
  | .obj kvs => .ok (flatten_settings kvs "")
  | _ => .error "AttributeError: object has no attribute items"

/-- The keys of a settings dictionary, in insertion order. -/
def keys (s : List (String × Entry)) : List String := s.map Prod.fst

/-- Independent reference walker following the traversal rule of the
spec: the dotted paths at which the branching rule creates an entry,
in traversal order, with one occurrence per visited leaf-like node. -/
def reachablePaths : List (String × JValue) → String → List String
  | [], _ => []
  | (key, JValue.obj kvs) :: rest, pfx =>
    if hasSentinelKey kvs then full_key_of pfx key :: reachablePaths rest pfx
    else reachablePaths kvs (full_key_of pfx key) ++ reachablePaths rest pfx
  | (key, _) :: rest, pfx => full_key_of pfx key :: reachablePaths rest pfx

/-- The branching condition of flatten_settings: a dictionary value
none of whose own direct keys is a sentinel is treated as a structural
nesting level; every other value gets one flat entry. -/
def structuralValue : JValue → Bool
  | .obj kvs => !hasSentinelKey kvs
  | _ => false

/-- The category table exactly as listed by the spec: an ordered list
of substring-predicate groups with their labels, evaluated first match
wins. -/
def categoryRules : List (List String × String) :=
  [(["font", "text"], "font"),
   (["theme", "color", "appearance"], "appearance"),
   (["panel", "dock", "tab"], "ui"),
   (["git"], "git"),
   (["agent", "ai"], "ai"),
   (["language", "lsp"], "language"),
   (["key", "vim", "helix"], "keybindings"),
   (["scroll", "cursor"], "editor"),
   (["diagnostic"], "diagnostics"),
   (["format", "indent"], "formatting")]

/-- First label of an ordered rule table one of whose needles occurs
in the dotted path. -/
def firstMatch (full_key : String) : List (List String × String) → Option String
  | [] => none
  | r :: rs => if r.1.any (fun n => strIn n full_key) then some r.2 else firstMatch full_key rs

/-- Spec-side category assignment: first rule of the ordered table one
of whose needles occurs in the dotted path, defaulting to general. -/
def categorySpec (full_key : String) : String :=
  (firstMatch full_key categoryRules).getD "general"

/-- Spec-side description transform: replace every underscore and every
dot of the dotted path by a space, in one pass over the characters. -/
def spaceOutChars (full_key : String) : String :=
  String.mk (full_key.data.map (fun c => if c = '_' ∨ c = '.' then ' ' else c))

/-- Spec-side description: the space-separated path with the fixed
leading phrase. -/
def descriptionSpec (full_key : String) : String :=
  "Configuration for " ++ spaceOutChars full_key

/-- The default-value rule as implemented: include the raw value
unless it is null, an empty string, an empty array, or a mapping
(object-typed entries never receive a default); booleans and numbers
are always included, and a value of unsupported shape counts as a
truthy string. -/
def defaultValueSpec : JValue → Option JValue
  | .null => none
  | .str s => if s = "" then none else some (.str s)
  | .arr xs => if xs.isEmpty then none else some (.arr xs)
  | .obj _ => none
  | v => some v

/-- Python str.split on a newline: the list of lines, keeping empty
pieces, with one piece even for the empty string. -/
def splitLines : List Char → List (List Char)
  | [] => [[]]
  | c :: rest =>
    if c = '\n' then [] :: splitLines rest
    else
      match splitLines rest with
      | [] => [[c]]
      | l :: ls => (c :: l) :: ls

/-- Python str.join with a newline separator. -/
def joinLines : List (List Char) → List Char
  | [] => []
  | [l] => l
  | l :: ls => l ++ '\n' :: joinLines ls

/-- Python line[:line.find(needle)] when the needle occurs in the line:
the characters strictly before the first occurrence. -/
def cutBefore (needle : List Char) : List Char → List Char
  | [] => []
  | c :: rest => if prefixChars needle (c :: rest) then [] else c :: cutBefore needle rest

/-- The per-line comment handling of fetch_default_json: a line with a
comment marker is kept whole when it looks like it contains a URL and
truncated at the first marker otherwise. -/
def stripLineChars (line : List Char) : List Char :=
  if hasSubstr "//".data line then
    if hasSubstr "http://".data line || hasSubstr "https://".data line then line
    else cutBefore "//".data line
  else line

/-- The whitespace class of the regex shorthand backslash-s for str
patterns: CPython matches exactly the characters satisfying
Py_UNICODE_ISSPACE, that is 0x09-0x0d, 0x1c-0x1f, the space, 0x85
(next line), 0xa0 (no-break space), 0x1680, 0x2000-0x200a, 0x2028,
0x2029, 0x202f, 0x205f and 0x3000. -/
def isSpaceRe (c : Char) : Bool :=
  decide ((0x09 ≤ c.toNat ∧ c.toNat ≤ 0x0d) ∨ (0x1c ≤ c.toNat ∧ c.toNat ≤ 0x1f) ∨
    c.toNat = 0x20 ∨ c.toNat = 0x85 ∨ c.toNat = 0xa0 ∨ c.toNat = 0x1680 ∨
    (0x2000 ≤ c.toNat ∧ c.toNat ≤ 0x200a) ∨ c.toNat = 0x2028 ∨ c.toNat = 0x2029 ∨
    c.toNat = 0x202f ∨ c.toNat = 0x205f ∨ c.toNat = 0x3000)

/-- Matching the tail of the trailing-comma pattern at the head of l:
optional whitespace followed by a closing brace or bracket, returning
the consumed whitespace, the bracket, and the remainder together with
the fact that at least one character was consumed. -/
def wsBracketSplit : (l : List Char) → Option (List Char × Char × { r : List Char // r.length < l.length })
  | [] => none
  | c :: rest =>
    if c = '\x7d' ∨ c = ']' then some ([], c, ⟨rest, Nat.lt_succ_self _⟩)
    else if isSpaceRe c then
      match wsBracketSplit rest with
      | some (ws, b, ⟨r, hr⟩) => some (c :: ws, b, ⟨r, Nat.lt_succ_of_lt hr⟩)
      | none => none
    else none

/-- The trailing-comma substitution of fetch_default_json: scan left to
right; at a comma followed by optional whitespace and a closing brace
or bracket, emit the whitespace and bracket without the comma and
continue after the match, exactly as the regex substitution does. -/
def tcSub : List Char → List Char
  | [] => []
  | c :: rest =>
    if c = ',' then
      match wsBracketSplit rest with
      | some (ws, b, ⟨r, _⟩) => ws ++ b :: tcSub r
      | none => c :: tcSub rest
    else c :: tcSub rest
termination_by l => l.length
decreasing_by all_goals simp_wf <;> omega

/-- Whether the trailing-comma pattern matches anywhere in the text. -/
def tcMatchExists : List Char → Bool
  | [] => false
  | c :: rest => (c == ',' && (wsBracketSplit rest).isSome) || tcMatchExists rest

/-- The preprocessing stage of fetch_default_json before json.loads:
split into lines, strip comments per line, rejoin, then apply the
trailing-comma substitution. -/
def preprocess (content : String) : String :=
  let cleaned := joinLines ((splitLines content.data).map stripLineChars)
  String.mk (tcSub cleaned)

/-- Pointwise view of the trailing-comma substitution: a comma whose
suffix starts with optional whitespace and a closing bracket is
dropped, every other character is copied. It agrees with the
left-to-right rescanning of the regex because a skipped match region
(whitespace and a closing bracket) contains no comma, as proved in
tcSub_eq_pointwise. -/
def tcSubP : List Char → List Char
  | [] => []
  | c :: rest =>
    if c = ',' ∧ (wsBracketSplit rest).isSome then tcSubP rest
    else c :: tcSubP rest

/-- The whitespace characters of the JSON grammar. -/
def jsonWsChars : List Char := [' ', '\t', '\n', '\r']

/-- Skip JSON whitespace. -/
def skipJsonWs : List Char → List Char
  | [] => []
  | c :: rest => if jsonWsChars.contains c then skipJsonWs rest else c :: rest

/-- Decimal digit test of the JSON number grammar. -/
def jsonDigit (c : Char) : Bool :=
  decide (0x30 ≤ c.toNat ∧ c.toNat ≤ 0x39)

/-- Hexadecimal digit test for unicode escapes. -/
def isHexChar (c : Char) : Bool :=
  decide ((0x30 ≤ c.toNat ∧ c.toNat ≤ 0x39) ∨ (0x61 ≤ c.toNat ∧ c.toNat ≤ 0x66) ∨
    (0x41 ≤ c.toNat ∧ c.toNat ≤ 0x46))

/-- Modelled from the spec: json.loads belongs to the Python standard
library and is not part of this repository, so strict JSON acceptance
is modelled from the words of the spec as an RFC 8259 acceptor. This
function consumes the body of a string literal after the opening quote,
up to and including the closing quote, rejecting raw control
characters and malformed escapes. -/
def parseStringBody : List Char → Option (List Char)
  | [] => none
  | c :: rest =>
    if c = '"' then some rest
    else if c = '\\' then
      match rest with
      | 'u' :: h1 :: h2 :: h3 :: h4 :: rest2 =>
        if isHexChar h1 && isHexChar h2 && isHexChar h3 && isHexChar h4 then
          parseStringBody rest2
        else none
      | 'u' :: _ => none
      | e :: rest2 =>
        if ['"', '\\', '/', 'b', 'f', 'n', 'r', 't'].contains e then parseStringBody rest2
        else none
      | [] => none
    else if c.toNat < 32 then none
    else parseStringBody rest

/-- Skip a run of decimal digits. -/
def skipDigits : List Char → List Char
  | [] => []
  | c :: rest => if jsonDigit c then skipDigits rest else c :: rest

/-- The integer part of a strict JSON number: a single zero or a
nonzero digit followed by digits. -/
def parseIntPart : List Char → Option (List Char)
  | [] => none
  | c :: rest =>
    if c = '0' then some rest
    else if jsonDigit c then some (skipDigits rest)
    else none

/-- The optional fraction part of a strict JSON number. -/
def parseFracPart : List Char → Option (List Char)
  | '.' :: c :: rest => if jsonDigit c then some (skipDigits rest) else none
  | ['.'] => none
  | s => some s

/-- The tail of an exponent: an optional sign then at least one digit. -/
def parseExpTail : List Char → Option (List Char)
  | '+' :: c :: r => if jsonDigit c then some (skipDigits r) else none
  | '-' :: c :: r => if jsonDigit c then some (skipDigits r) else none
  | c :: r => if jsonDigit c then some (skipDigits r) else none
  | [] => none

/-- The optional exponent part of a strict JSON number. -/
def parseExpPart : List Char → Option (List Char)
  | [] => some []
  | e :: rest => if e = 'e' ∨ e = 'E' then parseExpTail rest else some (e :: rest)

/-- Strip one optional leading minus sign. -/
def stripSign : List Char → List Char
  | '-' :: r => r
  | s => s

/-- A strict JSON number starting at the head of the input. -/
def parseNumber (s : List Char) : Option (List Char) :=
  ((parseIntPart (stripSign s)).bind parseFracPart).bind parseExpPart

mutual

/-- Modelled from the spec: one strict JSON value starting at the head
of the input (leading whitespace already consumed), returning the rest
of the input. The fuel argument only bounds the recursion; callers pass
more fuel than any input of that length can use. -/
def parseValue : Nat → List Char → Option (List Char)
  | 0, _ => none
  | _ + 1, [] => none
  | fuel + 1, c :: rest =>
    if c = '"' then parseStringBody rest
    else if c = 't' then
      if prefixChars ['r', 'u', 'e'] rest then some (rest.drop 3) else none
    else if c = 'f' then
      if prefixChars ['a', 'l', 's', 'e'] rest then some (rest.drop 4) else none
    else if c = 'n' then
      if prefixChars ['u', 'l', 'l'] rest then some (rest.drop 3) else none
    else if c = '[' then
      match skipJsonWs rest with
      | ']' :: r => some r
      | s1 => parseElements fuel s1
    else if c = '\x7b' then
      match skipJsonWs rest with
      | '\x7d' :: r => some r
      | s1 => parseMembers fuel s1
    else if c = '-' ∨ jsonDigit c then parseNumber (c :: rest)
    else none

/-- The elements of a nonempty strict JSON array, up to and including
the closing bracket. -/
def parseElements : Nat → List Char → Option (List Char)
  | 0, _ => none
  | fuel + 1, s =>
    match parseValue fuel s with
    | none => none
    | some r =>
      match skipJsonWs r with
      | ',' :: r2 => parseElements fuel (skipJsonWs r2)
      | ']' :: r2 => some r2
      | _ => none

/-- The members of a nonempty strict JSON object, up to and including
the closing brace. -/
def parseMembers : Nat → List Char → Option (List Char)
  | 0, _ => none
  | fuel + 1, s =>
    match s with
    | '"' :: srest =>
      match parseStringBody srest with
      | none => none
      | some r =>
        match skipJsonWs r with
        | ':' :: r2 =>
          match parseValue fuel (skipJsonWs r2) with
          | none => none
          | some r3 =>
            match skipJsonWs r3 with
            | ',' :: r4 => parseMembers fuel (skipJsonWs r4)
            | '\x7d' :: r4 => some r4
            | _ => none
        | _ => none
    | _ => none

end

/-- Modelled from the spec: whether a text parses as strict JSON, that
is, optional whitespace, one value, optional whitespace, end of input. -/
def isStrictJson (s : String) : Bool :=
  let cs := skipJsonWs s.data
  match parseValue (4 * cs.length + 4) cs with
  | some r => (skipJsonWs r).isEmpty
  | none => false

/-- The theme example of the spec: a mapping whose direct keys include
the sentinels mode, dark and light. -/
def exThemeVal : List (String × JValue) :=
  [("mode", JValue.str "dark"),
   ("dark", JValue.obj [("background", JValue.str "#000")]),
   ("light", JValue.obj [("background", JValue.str "#fff")])]

/-- A settings tree whose only top-level key is the theme example. -/
def exTheme : List (String × JValue) := [("theme", JValue.obj exThemeVal)]

/-- Two distinct leaves whose dotted paths collide: the nested leaf at
a, b and the top-level key spelled a.b. -/
def exCollide : List (String × JValue) :=
  [("a", JValue.obj [("b", JValue.num 1)]), ("a.b", JValue.num 2)]

/-!
Helper lemmas about the dictionary operations, the entry constructor
and the category chain, shared by the claim theorems below.
-/

theorem keys_upsert (s : List (String × Entry)) (k : String) (v : Entry) :
    keys (upsert s k v) = if s.any (fun p => p.1 == k) then keys s else keys s ++ [k] := by
  unfold upsert
  split
  · next h =>
    simp only [keys, List.map_map]
    apply List.map_congr_left
    intro p _
    by_cases hk : p.1 = k <;> simp [hk]
  · simp [keys]

theorem mem_upsert (s : List (String × Entry)) (k : String) (v : Entry)
    (p : String × Entry) (h : p ∈ upsert s k v) : p ∈ s ∨ p = (k, v) := by
  unfold upsert at h
  split at h
  · obtain ⟨q, hq, hfq⟩ := List.mem_map.mp h
    by_cases hk : q.1 = k
    · right; simp [hk] at hfq; exact hfq.symm
    · left; simp [hk] at hfq; exact hfq ▸ hq
  · rcases List.mem_append.mp h with h1 | h1
    · left; exact h1
    · right; simpa using h1

theorem nodup_keys_upsert (s : List (String × Entry)) (k : String) (v : Entry)
    (h : (keys s).Nodup) : (keys (upsert s k v)).Nodup := by
  rw [keys_upsert]
  split
  · exact h
  · next hany =>
    simp only [List.any_eq_true, not_exists, not_and, Bool.not_eq_true] at hany
    refine List.Nodup.append h (List.nodup_singleton k) ?_
    intro a ha hb
    simp only [List.mem_singleton] at hb
    subst hb
    obtain ⟨q, hq, hq1⟩ := List.mem_map.mp ha
    have := hany q hq
    simp only [beq_eq_false_iff_ne, ne_eq] at this
    exact this (by exact hq1)

theorem mem_dictUpdate (s t : List (String × Entry)) (p : String × Entry)
    (h : p ∈ dictUpdate s t) : p ∈ s ∨ p ∈ t := by
  induction t generalizing s with
  | nil => exact Or.inl h
  | cons q t ih =>
    rcases ih (upsert s q.1 q.2) h with h1 | h1
    · rcases mem_upsert _ _ _ _ h1 with h2 | h2
      · exact Or.inl h2
      · exact Or.inr (by simp [h2])
    · exact Or.inr (List.mem_cons_of_mem _ h1)

theorem keys_dictUpdate_subset (s t : List (String × Entry)) :
    keys (dictUpdate s t) ⊆ keys s ++ keys t := by
  intro a ha
  obtain ⟨p, hp, hp1⟩ := List.mem_map.mp ha
  rcases mem_dictUpdate s t p hp with h | h
  · exact List.mem_append.mpr (Or.inl (hp1 ▸ List.mem_map_of_mem _ h))
  · exact List.mem_append.mpr (Or.inr (hp1 ▸ List.mem_map_of_mem _ h))

theorem nodup_keys_dictUpdate (s t : List (String × Entry))
    (h : (keys s).Nodup) : (keys (dictUpdate s t)).Nodup := by
  induction t generalizing s with
  | nil => exact h
  | cons q t ih => exact ih _ (nodup_keys_upsert _ _ _ h)

theorem mkEntry_name (k : String) (v : JValue) : (mkEntry k v).name = k := rfl

theorem mkEntry_type (k : String) (v : JValue) : (mkEntry k v).type = infer_type v := rfl

theorem mkEntry_category (k : String) (v : JValue) : (mkEntry k v).category = categoryOf k := rfl

theorem mkEntry_description (k : String) (v : JValue) :
    (mkEntry k v).description = descriptionSpec k := by
  show "Configuration for " ++ pyReplaceChar (pyReplaceChar k '_' ' ') '.' ' ' = descriptionSpec k
  unfold descriptionSpec spaceOutChars pyReplaceChar
  congr 1
  simp only [List.map_map]
  congr 1
  apply List.map_congr_left
  intro c _
  by_cases h1 : c = '_'
  · simp [h1, Function.comp]
  · by_cases h2 : c = '.' <;> simp [h1, h2, Function.comp]

theorem mkEntry_default (k : String) (v : JValue) :
    (mkEntry k v).default_value = defaultValueSpec v := by
  cases v with
  | null => rfl
  | bool b => simp [mkEntry, defaultValueSpec, infer_type, isinstance_bool]
  | num n => simp [mkEntry, defaultValueSpec, infer_type, isinstance_bool, isinstance_int_float]
  | str s =>
    by_cases h : s = "" <;>
      simp [mkEntry, defaultValueSpec, infer_type, isinstance_bool, isinstance_int_float,
        isinstance_str, pyTruthy, h]
  | arr xs =>
    by_cases h : xs.isEmpty <;>
      simp [mkEntry, defaultValueSpec, infer_type, isinstance_bool, isinstance_int_float,
        isinstance_str, isinstance_list, pyTruthy, h]
  | obj kvs =>
    simp [mkEntry, defaultValueSpec, infer_type, isinstance_bool, isinstance_int_float,
      isinstance_str, isinstance_list, isinstance_dict, pyTruthy]
  | other =>
    simp [mkEntry, defaultValueSpec, infer_type, isinstance_bool, isinstance_int_float,
      isinstance_str, isinstance_list, isinstance_dict, pyTruthy]

set_option maxHeartbeats 1000000 in
theorem categoryOf_eq_spec (k : String) : categoryOf k = categorySpec k := by
  unfold categoryOf categorySpec
  rw [categoryRules]
  simp only [firstMatch, List.any_cons, List.any_nil, Bool.or_false, Bool.or_assoc]
  split_ifs <;> rfl


theorem flattenAux_cons_structural (key : String) (kvs rest : List (String × JValue))
    (pfx : String) (acc : List (String × Entry)) (h : hasSentinelKey kvs = false) :
    flattenAux ((key, JValue.obj kvs) :: rest) pfx acc
      = flattenAux rest pfx (dictUpdate acc (flatten_settings kvs (full_key_of pfx key))) := by
  simp [flattenAux, flatten_settings, h]

theorem flattenAux_cons_entry (key : String) (value : JValue) (rest : List (String × JValue))
    (pfx : String) (acc : List (String × Entry)) (h : structuralValue value = false) :
    flattenAux ((key, value) :: rest) pfx acc
      = flattenAux rest pfx (upsert acc (full_key_of pfx key) (mkEntry (full_key_of pfx key) value)) := by
  cases value with
  | obj kvs =>
    have hs : hasSentinelKey kvs = true := by
      simpa [structuralValue] using h
    simp [flattenAux, hs]
  | null => simp [flattenAux]
  | bool b => simp [flattenAux]
  | num n => simp [flattenAux]
  | str s => simp [flattenAux]
  | arr xs => simp [flattenAux]
  | other => simp [flattenAux]

theorem mem_flattenAux_origin (pairs : List (String × JValue)) (pfx : String)
    (acc : List (String × Entry)) :
    ∀ p, p ∈ flattenAux pairs pfx acc → p ∈ acc ∨ ∃ v, p.2 = mkEntry p.1 v := by
  induction pairs, pfx, acc using flattenAux.induct with
  | case1 pfx acc =>
    intro p hp
    exact Or.inl (by simpa [flattenAux] using hp)
  | case2 key kvs rest pfx acc hsent ih =>
    intro p hp
    simp only [flattenAux, hsent, if_pos] at hp
    rcases ih p hp with h | h
    · rcases mem_upsert _ _ _ _ h with h2 | h2
      · exact Or.inl h2
      · right; exact ⟨JValue.obj kvs, by rw [h2]⟩
    · exact Or.inr h
  | case3 key kvs rest pfx acc hsent ih1 ih2 =>
    intro p hp
    simp only [flattenAux, hsent, if_neg, if_false] at hp
    rcases ih2 p hp with h | h
    · rcases mem_dictUpdate _ _ _ h with h2 | h2
      · exact Or.inl h2
      · rcases ih1 p h2 with h3 | h3
        · exact absurd h3 (List.not_mem_nil p)
        · exact Or.inr h3
    · exact Or.inr h
  | case4 key value rest pfx acc hobj ih =>
    intro p hp
    have hstruct : structuralValue value = false := by
      cases value with
      | obj kvs => exact absurd rfl (hobj kvs)
      | null => rfl
      | bool b => rfl
      | num n => rfl
      | str s => rfl
      | arr xs => rfl
      | other => rfl
    rw [flattenAux_cons_entry key value rest pfx acc hstruct] at hp
    rcases ih p hp with h | h
    · rcases mem_upsert _ _ _ _ h with h2 | h2
      · exact Or.inl h2
      · right; exact ⟨value, by rw [h2]⟩
    · exact Or.inr h

theorem keys_upsert_subset (s : List (String × Entry)) (k : String) (v : Entry) :
    keys (upsert s k v) ⊆ keys s ++ [k] := by
  rw [keys_upsert]
  split
  · exact fun a ha => List.mem_append.mpr (Or.inl ha)
  · exact fun a ha => ha

theorem keys_flattenAux_subset (pairs : List (String × JValue)) (pfx : String)
    (acc : List (String × Entry)) :
    keys (flattenAux pairs pfx acc) ⊆ keys acc ++ reachablePaths pairs pfx := by
  induction pairs, pfx, acc using flattenAux.induct with
  | case1 pfx acc =>
    intro a ha
    simp only [flattenAux] at ha
    simp [ha]
  | case2 key kvs rest pfx acc hsent ih =>
    intro a ha
    simp only [flattenAux, hsent, if_pos] at ha
    have h1 := ih ha
    rcases List.mem_append.mp h1 with h2 | h2
    · have h3 := keys_upsert_subset acc (full_key_of pfx key) _ h2
      rcases List.mem_append.mp h3 with h4 | h4
      · simp [h4]
      · simp only [List.mem_singleton] at h4
        simp [reachablePaths, hsent, h4]
    · simp [reachablePaths, hsent, h2]
  | case3 key kvs rest pfx acc hsent ih1 ih2 =>
    intro a ha
    simp only [flattenAux, hsent, if_neg, if_false] at ha
    have h1 := ih2 ha
    rcases List.mem_append.mp h1 with h2 | h2
    · have h3 := keys_dictUpdate_subset acc (flattenAux kvs (full_key_of pfx key) []) h2
      rcases List.mem_append.mp h3 with h4 | h4
      · simp [h4]
      · have h5 := ih1 h4
        simp only [keys, List.map_nil, List.nil_append] at h5
        simp [reachablePaths, hsent, h5]
    · simp [reachablePaths, hsent, h2]
  | case4 key value rest pfx acc hobj ih =>
    intro a ha
    have hstruct : structuralValue value = false := by
      cases value with
      | obj kvs => exact absurd rfl (hobj kvs)
      | null => rfl
      | bool b => rfl
      | num n => rfl
      | str s => rfl
      | arr xs => rfl
      | other => rfl
    rw [flattenAux_cons_entry key value rest pfx acc hstruct] at ha
    have h1 := ih ha
    rcases List.mem_append.mp h1 with h2 | h2
    · have h3 := keys_upsert_subset acc (full_key_of pfx key) _ h2
      rcases List.mem_append.mp h3 with h4 | h4
      · simp [h4]
      · simp only [List.mem_singleton] at h4
        cases value with
        | obj kvs => exact absurd rfl (hobj kvs)
        | null => simp [reachablePaths, h4]
        | bool b => simp [reachablePaths, h4]
        | num n => simp [reachablePaths, h4]
        | str s => simp [reachablePaths, h4]
        | arr xs => simp [reachablePaths, h4]
        | other => simp [reachablePaths, h4]
    · cases value with
      | obj kvs => exact absurd rfl (hobj kvs)
      | null => simp [reachablePaths, h2]
      | bool b => simp [reachablePaths, h2]
      | num n => simp [reachablePaths, h2]
      | str s => simp [reachablePaths, h2]
      | arr xs => simp [reachablePaths, h2]
      | other => simp [reachablePaths, h2]

theorem nodup_keys_flattenAux (pairs : List (String × JValue)) (pfx : String)
    (acc : List (String × Entry)) (h : (keys acc).Nodup) :
    (keys (flattenAux pairs pfx acc)).Nodup := by
  induction pairs, pfx, acc using flattenAux.induct with
  | case1 pfx acc => simpa [flattenAux] using h
  | case2 key kvs rest pfx acc hsent ih =>
    simp only [flattenAux, hsent, if_pos]
    exact ih (nodup_keys_upsert _ _ _ h)
  | case3 key kvs rest pfx acc hsent ih1 ih2 =>
    simp only [flattenAux, hsent, if_neg, if_false]
    exact ih2 (nodup_keys_dictUpdate _ _ h)
  | case4 key value rest pfx acc hobj ih =>
    have hstruct : structuralValue value = false := by
      cases value with
      | obj kvs => exact absurd rfl (hobj kvs)
      | null => rfl
      | bool b => rfl
      | num n => rfl
      | str s => rfl
      | arr xs => rfl
      | other => rfl
    rw [flattenAux_cons_entry key value rest pfx acc hstruct]
    exact ih (nodup_keys_upsert _ _ _ h)


/-!
Claim theorems.
-/

/-- C1: a mapping value whose own direct keys avoid the sentinel set is
a structural level: no entry is created for it and the recursion under
the extended prefix is merged; every other value gets exactly one entry
under its full key. On the theme example only the entry theme of type
object is produced, and none of theme.mode, theme.dark, theme.light. -/
theorem flatten_branching_c1 :
    (∀ (key : String) (kvs rest : List (String × JValue)) (pfx : String)
        (acc : List (String × Entry)), hasSentinelKey kvs = false →
        flattenAux ((key, JValue.obj kvs) :: rest) pfx acc
          = flattenAux rest pfx (dictUpdate acc (flatten_settings kvs (full_key_of pfx key))))
    ∧ (∀ (key : String) (value : JValue) (rest : List (String × JValue)) (pfx : String)
        (acc : List (String × Entry)), structuralValue value = false →
        flattenAux ((key, value) :: rest) pfx acc
          = flattenAux rest pfx (upsert acc (full_key_of pfx key) (mkEntry (full_key_of pfx key) value)))
    ∧ flatten_settings exTheme "" = [("theme", mkEntry "theme" (JValue.obj exThemeVal))]
    ∧ (mkEntry "theme" (JValue.obj exThemeVal)).type = "object"
    ∧ keys (flatten_settings exTheme "") = ["theme"] := by
  refine ⟨flattenAux_cons_structural, flattenAux_cons_entry, ?_, by decide, ?_⟩
  · simp +decide [flatten_settings, flattenAux, exTheme, exThemeVal, upsert, full_key_of]
  · simp +decide [flatten_settings, flattenAux, exTheme, exThemeVal, upsert, full_key_of, keys]

/-- Witness for C1 at concrete inputs: one structural pair and one
scalar pair. -/
theorem flatten_branching_c1_witness :
    flattenAux [("a", JValue.obj [("b", JValue.num 1)])] "" []
      = flattenAux [] "" (dictUpdate [] (flatten_settings [("b", JValue.num 1)] (full_key_of "" "a")))
    ∧ flattenAux [("x", JValue.num 2)] "" []
      = flattenAux [] "" (upsert [] (full_key_of "" "x") (mkEntry (full_key_of "" "x") (JValue.num 2))) :=
  ⟨flatten_branching_c1.1 "a" [("b", JValue.num 1)] [] "" [] (by decide),
   flatten_branching_c1.2.1 "x" (JValue.num 2) [] "" [] (by decide)⟩

/-- C2: infer_type is total with the exact first-match priority of the
source: booleans to boolean, numbers to number, strings to string,
sequences to array, mappings to object, null and unsupported shapes to
string; a boolean is never classified as number even though it passes
the numeric isinstance test. -/
theorem infer_type_table_c2 :
    (∀ b, infer_type (JValue.bool b) = "boolean")
    ∧ (∀ n, infer_type (JValue.num n) = "number")
    ∧ (∀ s, infer_type (JValue.str s) = "string")
    ∧ (∀ xs, infer_type (JValue.arr xs) = "array")
    ∧ (∀ kvs, infer_type (JValue.obj kvs) = "object")
    ∧ infer_type JValue.null = "string"
    ∧ infer_type JValue.other = "string"
    ∧ (∀ b, isinstance_int_float (JValue.bool b) = true)
    ∧ (∀ b, (infer_type (JValue.bool b) == "number") = false) := by
  exact ⟨fun b => rfl, fun n => rfl, fun s => rfl, fun xs => rfl, fun kvs => rfl, rfl, rfl,
    fun b => rfl, fun b => rfl⟩

/-- C3: the category of every produced entry is assigned by the
first-match substring chain over the full dotted path, equal to the
ordered rule table of the spec; git.font_style resolves to font because
font is tested before git, and vim_mode resolves to keybindings. -/
theorem category_rule_c3 :
    (∀ k, categoryOf k = categorySpec k)
    ∧ (∀ (pairs : List (String × JValue)) (pfx k : String) (e : Entry),
        (k, e) ∈ flatten_settings pairs pfx → e.category = categoryOf k)
    ∧ categoryOf "git.font_style" = "font"
    ∧ categoryOf "vim_mode" = "keybindings" := by
  refine ⟨categoryOf_eq_spec, ?_, by decide, by decide⟩
  intro pairs pfx k e h
  rcases mem_flattenAux_origin pairs pfx [] (k, e) h with h1 | ⟨v, hv⟩
  · exact absurd h1 (List.not_mem_nil _)
  · rw [show e = mkEntry k v from hv]
    exact mkEntry_category k v

/-- Witness for C3: the entry stored for vim_mode carries the category
computed by the chain. -/
theorem category_rule_c3_witness :
    (mkEntry "vim_mode" (JValue.bool false)).category = categoryOf "vim_mode" :=
  category_rule_c3.2.1 [("vim_mode", JValue.bool false)] "" "vim_mode"
    (mkEntry "vim_mode" (JValue.bool false))
    (by simp +decide [flatten_settings, flattenAux, upsert, full_key_of])

/-- C4 fails on the code: a composite-leaf mapping (here the theme
object carrying the sentinel key mode) is non-null and nonempty, yet
its entry stores no default_value, because no branch of the assignment
chain covers the object type. -/
theorem default_value_c4_counterexample :
    keys (flatten_settings [("theme", JValue.obj [("mode", JValue.str "dark")])] "") = ["theme"]
    ∧ (List.lookup "theme"
        (flatten_settings [("theme", JValue.obj [("mode", JValue.str "dark")])] "")).map
        Entry.default_value = some none
    ∧ isNone (JValue.obj [("mode", JValue.str "dark")]) = false
    ∧ pyTruthy (JValue.obj [("mode", JValue.str "dark")]) = true := by
  refine ⟨?_, ?_, rfl, by decide⟩
  · simp +decide [flatten_settings, flattenAux, upsert, dictUpdate, full_key_of, keys]
  · simp +decide [flatten_settings, flattenAux, upsert, dictUpdate, full_key_of, List.lookup,
      mkEntry_default, defaultValueSpec]

/-- C4 as amended: every produced entry stores the raw value as
default_value unless the value is null, an empty string, an empty
array, or a mapping; booleans and numbers are always stored, false and
zero included. -/
theorem default_value_rule_c4 :
    (∀ (k : String) (v : JValue), (mkEntry k v).default_value = defaultValueSpec v)
    ∧ (∀ (pairs : List (String × JValue)) (pfx k : String) (e : Entry),
        (k, e) ∈ flatten_settings pairs pfx →
        ∃ v, e = mkEntry k v ∧ e.default_value = defaultValueSpec v) := by
  refine ⟨mkEntry_default, ?_⟩
  intro pairs pfx k e h
  rcases mem_flattenAux_origin pairs pfx [] (k, e) h with h1 | ⟨v, hv⟩
  · exact absurd h1 (List.not_mem_nil _)
  · exact ⟨v, hv, by rw [show e = mkEntry k v from hv]; exact mkEntry_default k v⟩

/-- Witness for C4 as amended: the false boolean entry keeps its
default. -/
theorem default_value_rule_c4_witness :
    ∃ v, mkEntry "vim_mode" (JValue.bool false) = mkEntry "vim_mode" v
      ∧ (mkEntry "vim_mode" (JValue.bool false)).default_value = defaultValueSpec v :=
  default_value_rule_c4.2 [("vim_mode", JValue.bool false)] "" "vim_mode"
    (mkEntry "vim_mode" (JValue.bool false))
    (by simp +decide [flatten_settings, flattenAux, upsert, full_key_of])

/-- C5 fails on the code: the tree with the nested leaf a.b valued one
and the top-level key a.b valued two has two reachable leaves with the
same dotted path, but the output holds a single entry, the later one
having overwritten the earlier, so a reachable leaf is lost. -/
theorem path_collision_c5_counterexample :
    reachablePaths exCollide "" = ["a.b", "a.b"]
    ∧ (flatten_settings exCollide "").length = 1
    ∧ (List.lookup "a.b" (flatten_settings exCollide "")).map Entry.default_value
        = some (some (JValue.num 2)) := by
  refine ⟨?_, ?_, ?_⟩
  · simp +decide [reachablePaths, exCollide, full_key_of]
  · simp +decide [flatten_settings, flattenAux, exCollide, upsert, dictUpdate, full_key_of]
  · simp +decide [flatten_settings, flattenAux, exCollide, upsert, dictUpdate, full_key_of,
      List.lookup, mkEntry_default, defaultValueSpec]

/-- C5 as amended: the output keys are pairwise distinct and every one
of them is a dotted path reachable from the root by the traversal rule;
when two reachable leaves share a dotted path the later one overwrites
the earlier, so a key appears at most once rather than once per leaf. -/
theorem path_reachable_c5 :
    ∀ (pairs : List (String × JValue)) (pfx : String),
      (keys (flatten_settings pairs pfx)).Nodup
      ∧ ∀ k, k ∈ keys (flatten_settings pairs pfx) → k ∈ reachablePaths pairs pfx := by
  intro pairs pfx
  constructor
  · exact nodup_keys_flattenAux pairs pfx [] (by simp [keys])
  · intro k hk
    have h := keys_flattenAux_subset pairs pfx [] hk
    simpa [keys] using h

/-- Witness for C5 as amended, at the colliding example. -/
theorem path_reachable_c5_witness :
    (keys (flatten_settings exCollide "")).Nodup ∧ "a.b" ∈ reachablePaths exCollide "" :=
  ⟨(path_reachable_c5 exCollide "").1,
   (path_reachable_c5 exCollide "").2 "a.b"
     (by simp +decide [flatten_settings, flattenAux, exCollide, upsert, dictUpdate, full_key_of, keys])⟩

/-- C6: a value of unsupported shape never aborts the flattening, it
produces an ordinary entry of type string; a non-mapping root makes the
dynamic call fail immediately with a descriptive error instead of
returning a partial result. -/
theorem unsupported_and_root_c6 :
    (∀ (key : String) (rest : List (String × JValue)) (pfx : String)
        (acc : List (String × Entry)),
        flattenAux ((key, JValue.other) :: rest) pfx acc
          = flattenAux rest pfx (upsert acc (full_key_of pfx key)
              (mkEntry (full_key_of pfx key) JValue.other)))
    ∧ (∀ k, (mkEntry k JValue.other).type = "string")
    ∧ (∀ root, isinstance_dict root = false →
        ∃ msg, flatten_settings_dyn root = Except.error msg)
    ∧ flatten_settings_dyn (JValue.num 3)
        = Except.error "AttributeError: object has no attribute items" := by
  refine ⟨?_, fun k => rfl, ?_, rfl⟩
  · intro key rest pfx acc
    exact flattenAux_cons_entry key JValue.other rest pfx acc rfl
  · intro root h
    cases root with
    | obj kvs => simp [isinstance_dict] at h
    | null => exact ⟨_, rfl⟩
    | bool b => exact ⟨_, rfl⟩
    | num n => exact ⟨_, rfl⟩
    | str s => exact ⟨_, rfl⟩
    | arr xs => exact ⟨_, rfl⟩
    | other => exact ⟨_, rfl⟩

/-- Witness for C6 at a string root. -/
theorem unsupported_and_root_c6_witness :
    ∃ msg, flatten_settings_dyn (JValue.str "oops") = Except.error msg :=
  unsupported_and_root_c6.2.2.1 (JValue.str "oops") rfl

/-- C7: flatten_settings is a pure function of its two arguments; two
runs on the same input give the same flat mapping. -/
theorem deterministic_c7 :
    ∀ (pairs : List (String × JValue)) (pfx : String) (r1 r2 : List (String × Entry)),
      flatten_settings pairs pfx = r1 → flatten_settings pairs pfx = r2 → r1 = r2 :=
  fun _ _ _ _ h1 h2 => h1 ▸ h2 ▸ rfl

/-- Witness for C7 at the theme example. -/
theorem deterministic_c7_witness :
    flatten_settings exTheme "" = flatten_settings exTheme "" :=
  deterministic_c7 exTheme "" (flatten_settings exTheme "") (flatten_settings exTheme "") rfl rfl

/-- C8: every produced entry carries its own dotted path as name and
the description obtained by replacing every underscore and every dot
of the path by a space after the fixed phrase. -/
theorem description_rule_c8 :
    (∀ (pairs : List (String × JValue)) (pfx k : String) (e : Entry),
        (k, e) ∈ flatten_settings pairs pfx →
        e.name = k ∧ e.description = descriptionSpec k)
    ∧ descriptionSpec "editor.scroll_beyond" = "Configuration for editor scroll beyond" := by
  refine ⟨?_, by decide⟩
  intro pairs pfx k e h
  rcases mem_flattenAux_origin pairs pfx [] (k, e) h with h1 | ⟨v, hv⟩
  · exact absurd h1 (List.not_mem_nil _)
  · rw [show e = mkEntry k v from hv]
    exact ⟨mkEntry_name k v, mkEntry_description k v⟩

/-- Witness for C8: the stored scroll entry satisfies the description
rule. -/
theorem description_rule_c8_witness :
    (mkEntry "editor.scroll_beyond" (JValue.num 1)).name = "editor.scroll_beyond"
    ∧ (mkEntry "editor.scroll_beyond" (JValue.num 1)).description
        = descriptionSpec "editor.scroll_beyond" :=
  description_rule_c8.1 [("editor.scroll_beyond", JValue.num 1)] "" "editor.scroll_beyond"
    (mkEntry "editor.scroll_beyond" (JValue.num 1))
    (by simp +decide [flatten_settings, flattenAux, upsert, full_key_of])

/-- C10: a key holding an empty mapping is structural with an empty
recursion, so it contributes nothing to the output. -/
theorem empty_mapping_c10 :
    (∀ (key : String) (rest : List (String × JValue)) (pfx : String)
        (acc : List (String × Entry)),
        flattenAux ((key, JValue.obj []) :: rest) pfx acc = flattenAux rest pfx acc)
    ∧ flatten_settings [("k", JValue.obj [])] "" = [] := by
  constructor
  · intro key rest pfx acc
    rw [flattenAux_cons_structural key [] rest pfx acc rfl]
    simp [flatten_settings, flattenAux, dictUpdate]
  · simp +decide [flatten_settings, flattenAux, dictUpdate]



theorem prefixChars_append (n xs ext : List Char) (h : prefixChars n xs = true) :
    prefixChars n (xs ++ ext) = true := by
  induction n generalizing xs with
  | nil => simp [prefixChars]
  | cons a as ih =>
    cases xs with
    | nil => simp [prefixChars] at h
    | cons b bs =>
      simp only [prefixChars, Bool.and_eq_true] at h
      simp only [List.cons_append, prefixChars, Bool.and_eq_true]
      exact ⟨h.1, ih bs h.2⟩

theorem hasSubstr_nil_needle (l : List Char) : hasSubstr [] l = true := by
  cases l <;> simp [hasSubstr, prefixChars]

theorem hasSubstr_append (n xs ext : List Char) (h : hasSubstr n xs = true) :
    hasSubstr n (xs ++ ext) = true := by
  induction xs with
  | nil =>
    cases n with
    | nil => exact hasSubstr_nil_needle ext
    | cons a as => simp [hasSubstr, prefixChars] at h
  | cons c rest ih =>
    simp only [hasSubstr, Bool.or_eq_true] at h
    rcases h with h | h
    · simp only [List.cons_append, hasSubstr, Bool.or_eq_true]
      exact Or.inl (prefixChars_append n (c :: rest) ext h)
    · simp only [List.cons_append, hasSubstr, Bool.or_eq_true]
      exact Or.inr (ih h)

theorem splitLines_shape (l : List Char) :
    ∃ l0 ls ext, splitLines l = l0 :: ls ∧ l = l0 ++ ext := by
  induction l with
  | nil => exact ⟨[], [], [], rfl, rfl⟩
  | cons c rest ih =>
    by_cases hc : c = '\n'
    · exact ⟨[], splitLines rest, c :: rest, by simp [splitLines, hc], rfl⟩
    · obtain ⟨m0, ms, ext, hs, he⟩ := ih
      refine ⟨c :: m0, ms, ext, ?_, by simp [he]⟩
      simp [splitLines, hc, hs]

theorem no_substr_lines (n l : List Char) (h : hasSubstr n l = false) :
    ∀ line ∈ splitLines l, hasSubstr n line = false := by
  induction l with
  | nil =>
    intro line hline
    simp only [splitLines, List.mem_singleton] at hline
    subst hline
    exact h
  | cons c rest ih =>
    simp only [hasSubstr, Bool.or_eq_false_iff] at h
    obtain ⟨hp, hr⟩ := h
    intro line hline
    by_cases hc : c = '\n'
    · simp only [splitLines, hc, if_pos, List.mem_cons] at hline
      rcases hline with rfl | hline
      · cases n with
        | nil => simp [prefixChars] at hp
        | cons a as => rfl
      · exact ih hr line hline
    · obtain ⟨m0, ms, ext, hs, he⟩ := splitLines_shape rest
      rw [show splitLines (c :: rest) = (c :: m0) :: ms by simp [splitLines, hc, hs]] at hline
      rcases List.mem_cons.mp hline with rfl | hline
      · show hasSubstr n (c :: m0) = false
        simp only [hasSubstr, Bool.or_eq_false_iff]
        constructor
        · by_contra hcon
          simp only [Bool.not_eq_false] at hcon
          have hext := prefixChars_append n (c :: m0) ext hcon
          rw [show (c :: m0) ++ ext = c :: rest by simp [he]] at hext
          simp [hext] at hp
        · by_contra hcon
          simp only [Bool.not_eq_false] at hcon
          have hext := hasSubstr_append n m0 ext hcon
          rw [← he] at hext
          simp [hext] at hr
      · exact ih hr line (hs ▸ List.mem_cons_of_mem m0 hline)

theorem join_split (l : List Char) : joinLines (splitLines l) = l := by
  induction l with
  | nil => rfl
  | cons c rest ih =>
    obtain ⟨m0, ms, ext, hs, he⟩ := splitLines_shape rest
    by_cases hc : c = '\n'
    · rw [show splitLines (c :: rest) = [] :: splitLines rest by simp [splitLines, hc]]
      rw [hs] at ih ⊢
      show joinLines ([] :: m0 :: ms) = c :: rest
      rw [show joinLines ([] :: m0 :: ms) = [] ++ '\n' :: joinLines (m0 :: ms) from rfl]
      simp [hc, ih]
    · rw [show splitLines (c :: rest) = (c :: m0) :: ms by simp [splitLines, hc, hs]]
      rw [hs] at ih
      cases ms with
      | nil =>
        show c :: m0 = c :: rest
        simpa using ih
      | cons x xs =>
        show (c :: m0) ++ '\n' :: joinLines (x :: xs) = c :: rest
        have hj : joinLines (m0 :: x :: xs) = m0 ++ '\n' :: joinLines (x :: xs) := rfl
        rw [hj] at ih
        simpa using ih

theorem stripLine_id (line : List Char) (h : hasSubstr "//".data line = false) :
    stripLineChars line = line := by
  simp [stripLineChars, h]

theorem tcSub_id (l : List Char) (h : tcMatchExists l = false) : tcSub l = l := by
  induction l using tcSub.induct with
  | case1 => simp [tcSub]
  | case2 rest ws b r hr hsplit ih =>
    exfalso
    simp only [tcMatchExists, Bool.or_eq_false_iff, Bool.and_eq_false_iff] at h
    rcases h.1 with h1 | h1
    · simp at h1
    · rw [hsplit] at h1
      simp at h1
  | case3 rest hsplit ih =>
    simp only [tcMatchExists, Bool.or_eq_false_iff] at h
    simp [tcSub, hsplit, ih h.2]
  | case4 c rest hc ih =>
    simp only [tcMatchExists, Bool.or_eq_false_iff] at h
    rw [show tcSub (c :: rest) = c :: tcSub rest by simp [tcSub, hc]]
    rw [ih h.2]

theorem preprocess_id (s : String) (h1 : hasSubstr "//".data s.data = false)
    (h2 : tcMatchExists s.data = false) : preprocess s = s := by
  have hmap : (splitLines s.data).map stripLineChars = (splitLines s.data).map id := by
    apply List.map_congr_left
    intro line hline
    simp [stripLine_id line (no_substr_lines _ _ h1 line hline)]
  show String.mk (tcSub (joinLines ((splitLines s.data).map stripLineChars))) = s
  rw [hmap, List.map_id, join_split, tcSub_id _ h2]



/-- C9 fails on the code: this input text is strict JSON, hence lies in
the JSON-superset dialect, but its one line contains a comment marker
inside a string value and no URL marker, so the preprocessing truncates
the line at the marker and the result no longer parses as strict JSON. -/
theorem preprocess_c9_counterexample :
    isStrictJson "\x7b \"a\": \"ab//cd\" \x7d" = true
    ∧ isStrictJson (preprocess "\x7b \"a\": \"ab//cd\" \x7d") = false := by
  constructor
  · decide
  · have h : preprocess "\x7b \"a\": \"ab//cd\" \x7d" = "\x7b \"a\": \"ab" := by
      simp +decide [preprocess, splitLines, joinLines, stripLineChars, cutBefore, tcSub,
        wsBracketSplit, isSpaceRe]
    rw [h]
    decide

/-!
Supporting development for the strengthened C9 theorem: the pointwise
view of the trailing-comma substitution, step lemmas for the strict
JSON acceptor, and a simulation argument showing the substitution
preserves acceptance.
-/

theorem wsBracketSplit_spec (l : List Char) :
    ∀ ws b sub, wsBracketSplit l = some (ws, b, sub) →
      l = ws ++ b :: sub.val ∧ (∀ c ∈ ws, isSpaceRe c = true) ∧ (b = '\x7d' ∨ b = ']') := by
  induction l with
  | nil => intro ws b sub h; simp [wsBracketSplit] at h
  | cons c rest ih =>
    intro ws b sub h
    simp only [wsBracketSplit] at h
    split at h
    · next hc =>
      simp only [Option.some.injEq, Prod.mk.injEq] at h
      obtain ⟨rfl, rfl, rfl⟩ := h
      exact ⟨by simp, by simp, hc⟩
    · split at h
      · next hsp =>
        cases hsplit : wsBracketSplit rest with
        | none => rw [hsplit] at h; simp at h
        | some trip =>
          obtain ⟨ws2, b2, sub2⟩ := trip
          rw [hsplit] at h
          simp only [Option.some.injEq, Prod.mk.injEq] at h
          obtain ⟨rfl, rfl, rfl⟩ := h
          obtain ⟨e1, e2, e3⟩ := ih ws2 b2 sub2 hsplit
          refine ⟨by simp [← e1], ?_, e3⟩
          intro x hx
          rcases List.mem_cons.mp hx with rfl | hx
          · exact hsp
          · exact e2 x hx
      · simp at h

theorem tcSubP_cons_keep (c : Char) (t : List Char) (h : c ≠ ',') :
    tcSubP (c :: t) = c :: tcSubP t := by
  simp [tcSubP, h]

theorem tcSubP_copy (a b : List Char) (h : ∀ c ∈ a, c ≠ ',') :
    tcSubP (a ++ b) = a ++ tcSubP b := by
  induction a with
  | nil => simp
  | cons c a ih =>
    have hc : c ≠ ',' := h c (List.mem_cons_self c a)
    simp only [List.cons_append]
    rw [tcSubP_cons_keep c (a ++ b) hc, ih (fun x hx => h x (List.mem_cons_of_mem c hx))]

theorem isSpaceRe_ne_comma (c : Char) (h : isSpaceRe c = true) : c ≠ ',' := by
  intro hc
  subst hc
  simp [isSpaceRe] at h

theorem bracket_ne_comma (b : Char) (h : b = '\x7d' ∨ b = ']') : b ≠ ',' := by
  rcases h with rfl | rfl <;> decide

theorem tcSubP_expose (t ws : List Char) (b : Char) (sub : { r : List Char // r.length < t.length })
    (h : wsBracketSplit t = some (ws, b, sub)) :
    tcSubP t = ws ++ b :: tcSubP sub.val := by
  obtain ⟨e1, e2, e3⟩ := wsBracketSplit_spec t ws b sub h
  obtain ⟨r, hr⟩ := sub
  show tcSubP t = ws ++ b :: tcSubP r
  replace e1 : t = ws ++ b :: r := e1
  clear h hr
  subst e1
  rw [tcSubP_copy ws (b :: r) (fun c hc => isSpaceRe_ne_comma c (e2 c hc))]
  rw [tcSubP_cons_keep b r (bracket_ne_comma b e3)]

theorem tcSub_eq_pointwise (l : List Char) : tcSub l = tcSubP l := by
  induction l using tcSub.induct with
  | case1 => simp [tcSub, tcSubP]
  | case2 rest ws b r hr hsplit ih =>
    rw [show tcSub (',' :: rest) = ws ++ b :: tcSub r by simp [tcSub, hsplit]]
    rw [show tcSubP (',' :: rest) = tcSubP rest by simp [tcSubP, hsplit]]
    rw [tcSubP_expose rest ws b ⟨r, hr⟩ hsplit, ih]
  | case3 rest hsplit ih =>
    rw [show tcSub (',' :: rest) = ',' :: tcSub rest by simp [tcSub, hsplit]]
    rw [show tcSubP (',' :: rest) = ',' :: tcSubP rest by simp [tcSubP, hsplit]]
    rw [ih]
  | case4 c rest hc ih =>
    rw [show tcSub (c :: rest) = c :: tcSub rest by simp [tcSub, hc]]
    rw [tcSubP_cons_keep c rest hc, ih]

theorem tcSubP_length (l : List Char) : (tcSubP l).length ≤ l.length := by
  induction l with
  | nil => simp [tcSubP]
  | cons c rest ih =>
    by_cases h : c = ',' ∧ (wsBracketSplit rest).isSome
    · rw [show tcSubP (c :: rest) = tcSubP rest by simp [tcSubP, h]]
      exact Nat.le_succ_of_le ih
    · rw [show tcSubP (c :: rest) = c :: tcSubP rest by simp [tcSubP, h]]
      simpa using ih

theorem hex_ne_comma (c : Char) (h : isHexChar c = true) : c ≠ ',' := by
  intro hc
  subst hc
  simp [isHexChar] at h

theorem psb_nil : parseStringBody [] = none := by
  rw [parseStringBody.eq_def]

theorem psb_quote (r : List Char) : parseStringBody ('"' :: r) = some r := by
  rw [parseStringBody.eq_def]
  rfl

theorem psb_esc_u (h1 h2 h3 h4 : Char) (r : List Char)
    (hhex : (isHexChar h1 && isHexChar h2 && isHexChar h3 && isHexChar h4) = true) :
    parseStringBody ('\\' :: 'u' :: h1 :: h2 :: h3 :: h4 :: r) = parseStringBody r := by
  rw [parseStringBody.eq_def]
  simp only [Bool.and_eq_true] at hhex
  simp [hhex]

theorem psb_esc (e : Char) (r : List Char) (hu : e ≠ 'u')
    (hesc : ['"', '\\', '/', 'b', 'f', 'n', 'r', 't'].contains e = true) :
    parseStringBody ('\\' :: e :: r) = parseStringBody r := by
  rw [parseStringBody.eq_def]
  conv_lhs => whnf
  simp at hesc
  split
  · next heq => exact absurd (List.cons.inj heq).1 hu
  · next heq => exact absurd (List.cons.inj heq).1 hu
  · next e2 r2 hne1 hne2 heq =>
    obtain ⟨rfl, rfl⟩ := List.cons.inj heq
    simp [hesc]
  · next heq => exact absurd heq (by simp)

theorem psb_ord (c : Char) (r : List Char) (hq : ¬c = '"') (hb : ¬c = '\\')
    (hctl : ¬c.toNat < 32) : parseStringBody (c :: r) = parseStringBody r := by
  rw [parseStringBody.eq_def]
  simp [hq, hb, hctl]

theorem escape_ne_comma (e : Char)
    (h : ['"', '\\', '/', 'b', 'f', 'n', 'r', 't'].contains e = true) : e ≠ ',' := by
  intro hc
  subst hc
  simp at h

theorem parseStringBody_sim (u : List Char) :
    ∀ r, parseStringBody u = some r → parseStringBody (tcSubP u) = some (tcSubP r) := by
  induction u using parseStringBody.induct with
  | case1 => intro r h; rw [psb_nil] at h; exact absurd h (by simp)
  | case2 rest =>
    intro r h
    rw [psb_quote] at h
    obtain rfl := Option.some.inj h
    rw [tcSubP_cons_keep '"' rest (by decide), psb_quote]
  | case3 h1 h2 h3 h4 rest2 hhex hne ih =>
    intro r h
    rw [psb_esc_u h1 h2 h3 h4 rest2 hhex] at h
    have hx : isHexChar h1 = true ∧ isHexChar h2 = true ∧ isHexChar h3 = true
        ∧ isHexChar h4 = true := by
      simp only [Bool.and_eq_true] at hhex
      tauto
    rw [tcSubP_cons_keep '\\' _ (by decide), tcSubP_cons_keep 'u' _ (by decide),
      tcSubP_cons_keep h1 _ (hex_ne_comma h1 hx.1), tcSubP_cons_keep h2 _ (hex_ne_comma h2 hx.2.1),
      tcSubP_cons_keep h3 _ (hex_ne_comma h3 hx.2.2.1), tcSubP_cons_keep h4 _ (hex_ne_comma h4 hx.2.2.2)]
    rw [psb_esc_u h1 h2 h3 h4 (tcSubP rest2) hhex]
    exact ih r h
  | case4 h1 h2 h3 h4 rest2 hhex hne =>
    intro r h
    rw [show parseStringBody ('\\' :: 'u' :: h1 :: h2 :: h3 :: h4 :: rest2) = none by
      rw [parseStringBody.eq_def]; simp [hhex]] at h
    exact absurd h (by simp)
  | case5 tail htail hne =>
    intro r h
    rcases tail with _ | ⟨c1, t1⟩
    · rw [show parseStringBody ['\\', 'u'] = none by rw [parseStringBody.eq_def]; rfl] at h
      exact absurd h (by simp)
    · rcases t1 with _ | ⟨c2, t2⟩
      · rw [show parseStringBody ['\\', 'u', c1] = none by rw [parseStringBody.eq_def]; rfl] at h
        exact absurd h (by simp)
      · rcases t2 with _ | ⟨c3, t3⟩
        · rw [show parseStringBody ['\\', 'u', c1, c2] = none by rw [parseStringBody.eq_def]; rfl] at h
          exact absurd h (by simp)
        · rcases t3 with _ | ⟨c4, t4⟩
          · rw [show parseStringBody ['\\', 'u', c1, c2, c3] = none by rw [parseStringBody.eq_def]; rfl] at h
            exact absurd h (by simp)
          · exact absurd rfl (htail c1 c2 c3 c4 t4)
  | case6 e rest2 hpat hu hesc hne ih =>
    intro r h
    have hune : e ≠ 'u' := fun he => hu he
    rw [psb_esc e rest2 hune hesc] at h
    rw [tcSubP_cons_keep '\\' _ (by decide), tcSubP_cons_keep e _ (escape_ne_comma e hesc)]
    rw [psb_esc e (tcSubP rest2) hune hesc]
    exact ih r h
  | case7 e rest2 hpat hu hesc hne =>
    intro r h
    have hune : e ≠ 'u' := fun he => hu he
    rw [parseStringBody.eq_def] at h
    conv_lhs at h => whnf
    split at h
    · next heq => exact absurd (List.cons.inj heq).1 hune
    · next heq => exact absurd (List.cons.inj heq).1 hune
    · next e2 r2 hne1 hne2 heq =>
      obtain ⟨rfl, rfl⟩ := List.cons.inj heq
      rw [if_neg (by simpa using hesc)] at h
      exact absurd h (by simp)
    · next heq => exact absurd heq (by simp)
  | case8 hne =>
    intro r h
    rw [show parseStringBody ['\\'] = none by rw [parseStringBody.eq_def]; rfl] at h
    exact absurd h (by simp)
  | case9 c rest hq hb hctl =>
    intro r h
    rw [show parseStringBody (c :: rest) = none by
      rw [parseStringBody.eq_def]; simp [hq, hb, hctl]] at h
    exact absurd h (by simp)
  | case10 c rest hq hb hctl ih =>
    intro r h
    rw [psb_ord c rest hq hb hctl] at h
    by_cases hcomma : c = ',' ∧ (wsBracketSplit rest).isSome
    · rw [show tcSubP (c :: rest) = tcSubP rest by simp [tcSubP, hcomma]]
      exact ih r h
    · rw [show tcSubP (c :: rest) = c :: tcSubP rest by simp [tcSubP, hcomma]]
      rw [psb_ord c (tcSubP rest) hq hb hctl]
      exact ih r h

theorem parseStringBody_len (u : List Char) :
    ∀ r, parseStringBody u = some r → r.length < u.length := by
  induction u using parseStringBody.induct with
  | case1 => intro r h; rw [psb_nil] at h; exact absurd h (by simp)
  | case2 rest =>
    intro r h
    rw [psb_quote] at h
    obtain rfl := Option.some.inj h
    simp
  | case3 h1 h2 h3 h4 rest2 hhex hne ih =>
    intro r h
    rw [psb_esc_u h1 h2 h3 h4 rest2 hhex] at h
    have := ih r h
    simp only [List.length_cons]
    omega
  | case4 h1 h2 h3 h4 rest2 hhex hne =>
    intro r h
    rw [show parseStringBody ('\\' :: 'u' :: h1 :: h2 :: h3 :: h4 :: rest2) = none by
      rw [parseStringBody.eq_def]; simp [hhex]] at h
    exact absurd h (by simp)
  | case5 tail htail hne =>
    intro r h
    rcases tail with _ | ⟨c1, t1⟩
    · rw [show parseStringBody ['\\', 'u'] = none by rw [parseStringBody.eq_def]; rfl] at h
      exact absurd h (by simp)
    · rcases t1 with _ | ⟨c2, t2⟩
      · rw [show parseStringBody ['\\', 'u', c1] = none by rw [parseStringBody.eq_def]; rfl] at h
        exact absurd h (by simp)
      · rcases t2 with _ | ⟨c3, t3⟩
        · rw [show parseStringBody ['\\', 'u', c1, c2] = none by rw [parseStringBody.eq_def]; rfl] at h
          exact absurd h (by simp)
        · rcases t3 with _ | ⟨c4, t4⟩
          · rw [show parseStringBody ['\\', 'u', c1, c2, c3] = none by rw [parseStringBody.eq_def]; rfl] at h
            exact absurd h (by simp)
          · exact absurd rfl (htail c1 c2 c3 c4 t4)
  | case6 e rest2 hpat hu hesc hne ih =>
    intro r h
    have hune : e ≠ 'u' := fun he => hu he
    rw [psb_esc e rest2 hune hesc] at h
    have := ih r h
    simp only [List.length_cons]
    omega
  | case7 e rest2 hpat hu hesc hne =>
    intro r h
    have hune : e ≠ 'u' := fun he => hu he
    rw [parseStringBody.eq_def] at h
    conv_lhs at h => whnf
    split at h
    · next heq => exact absurd (List.cons.inj heq).1 hune
    · next heq => exact absurd (List.cons.inj heq).1 hune
    · next e2 r2 hne1 hne2 heq =>
      obtain ⟨rfl, rfl⟩ := List.cons.inj heq
      rw [if_neg (by simpa using hesc)] at h
      exact absurd h (by simp)
    · next heq => exact absurd heq (by simp)
  | case8 hne =>
    intro r h
    rw [show parseStringBody ['\\'] = none by rw [parseStringBody.eq_def]; rfl] at h
    exact absurd h (by simp)
  | case9 c rest hq hb hctl =>
    intro r h
    rw [show parseStringBody (c :: rest) = none by
      rw [parseStringBody.eq_def]; simp [hq, hb, hctl]] at h
    exact absurd h (by simp)
  | case10 c rest hq hb hctl ih =>
    intro r h
    rw [psb_ord c rest hq hb hctl] at h
    have := ih r h
    simp only [List.length_cons]
    omega

theorem jsonWs_ne_comma (c : Char) (h : jsonWsChars.contains c = true) : c ≠ ',' := by
  intro hc
  subst hc
  simp [jsonWsChars] at h

theorem jsonWs_isSpace (c : Char) (h : jsonWsChars.contains c = true) : isSpaceRe c = true := by
  simp [jsonWsChars] at h
  rcases h with rfl | rfl | rfl | rfl <;> decide

theorem skipJsonWs_cons_ws (c : Char) (t : List Char) (h : jsonWsChars.contains c = true) :
    skipJsonWs (c :: t) = skipJsonWs t := by
  have hm : c ∈ jsonWsChars := by simpa using h
  simp [skipJsonWs, hm]

theorem skipJsonWs_not_ws (c : Char) (t : List Char) (h : jsonWsChars.contains c = false) :
    skipJsonWs (c :: t) = c :: t := by
  have hm : c ∉ jsonWsChars := by simpa using h
  simp [skipJsonWs, hm]

theorem skipJsonWs_spec (l : List Char) :
    ∃ w, l = w ++ skipJsonWs l ∧ ∀ c ∈ w, jsonWsChars.contains c = true := by
  induction l with
  | nil => exact ⟨[], rfl, by simp⟩
  | cons c rest ih =>
    by_cases h : jsonWsChars.contains c
    · obtain ⟨w, hw, hall⟩ := ih
      refine ⟨c :: w, ?_, ?_⟩
      · rw [skipJsonWs_cons_ws c rest h]
        simpa using hw
      · intro x hx
        rcases List.mem_cons.mp hx with rfl | hx
        · exact h
        · exact hall x hx
    · refine ⟨[], ?_, by simp⟩
      rw [skipJsonWs_not_ws c rest (eq_false_of_ne_true h)]
      simp

theorem skipJsonWs_head (l : List Char) :
    ∀ c t, skipJsonWs l = c :: t → jsonWsChars.contains c = false := by
  induction l with
  | nil => intro c t h; simp [skipJsonWs] at h
  | cons c0 rest ih =>
    intro c t h
    by_cases h0 : jsonWsChars.contains c0
    · rw [skipJsonWs_cons_ws c0 rest h0] at h
      exact ih c t h
    · rw [skipJsonWs_not_ws c0 rest (eq_false_of_ne_true h0)] at h
      obtain ⟨rfl, rfl⟩ := List.cons.inj h
      exact eq_false_of_ne_true h0

theorem skipJsonWs_append_ws (w x : List Char) (h : ∀ c ∈ w, jsonWsChars.contains c = true) :
    skipJsonWs (w ++ x) = skipJsonWs x := by
  induction w with
  | nil => simp
  | cons c w ih =>
    have hc := h c (List.mem_cons_self c w)
    simp only [List.cons_append]
    rw [skipJsonWs_cons_ws c (w ++ x) hc]
    exact ih (fun y hy => h y (List.mem_cons_of_mem c hy))

theorem skipJsonWs_nil_all (l : List Char) (h : skipJsonWs l = []) :
    ∀ c ∈ l, jsonWsChars.contains c = true := by
  induction l with
  | nil => simp
  | cons c rest ih =>
    by_cases h0 : jsonWsChars.contains c
    · rw [skipJsonWs_cons_ws c rest h0] at h
      intro x hx
      rcases List.mem_cons.mp hx with rfl | hx
      · exact h0
      · exact ih h x hx
    · rw [skipJsonWs_not_ws c rest (eq_false_of_ne_true h0)] at h
      exact absurd h (by simp)

theorem skipJsonWs_length (l : List Char) : (skipJsonWs l).length ≤ l.length := by
  induction l with
  | nil => simp [skipJsonWs]
  | cons c rest ih =>
    by_cases h : jsonWsChars.contains c
    · rw [skipJsonWs_cons_ws c rest h]
      exact Nat.le_succ_of_le ih
    · rw [skipJsonWs_not_ws c rest (eq_false_of_ne_true h)]

theorem jsonDigit_ne_comma (c : Char) (h : jsonDigit c = true) : c ≠ ',' := by
  intro hc
  subst hc
  simp [jsonDigit] at h

theorem tcSubP_ne_nil (t : List Char) (c : Char) (rest : List Char) (h : t = c :: rest) :
    tcSubP t ≠ [] := by
  subst h
  by_cases hc : c = ',' ∧ (wsBracketSplit rest).isSome
  · obtain ⟨hc1, hc2⟩ := hc
    subst hc1
    cases hsplit : wsBracketSplit rest with
    | none => rw [hsplit] at hc2; simp at hc2
    | some trip =>
      obtain ⟨ws, b, sub⟩ := trip
      rw [show tcSubP (',' :: rest) = tcSubP rest by simp [tcSubP, hsplit]]
      rw [tcSubP_expose rest ws b sub hsplit]
      cases ws <;> simp
  · rw [show tcSubP (c :: rest) = c :: tcSubP rest by simp [tcSubP, hc]]
    simp

theorem tcSubP_head (c : Char) (rest : List Char) :
    ∀ c' t', tcSubP (c :: rest) = c' :: t' →
      c' = c ∨ isSpaceRe c' = true ∨ c' = '\x7d' ∨ c' = ']' := by
  intro c' t' h
  by_cases hc : c = ',' ∧ (wsBracketSplit rest).isSome
  · obtain ⟨hc1, hc2⟩ := hc
    cases hsplit : wsBracketSplit rest with
    | none => rw [hsplit] at hc2; simp at hc2
    | some trip =>
      obtain ⟨ws, b, sub⟩ := trip
      subst hc1
      rw [show tcSubP (',' :: rest) = tcSubP rest by simp [tcSubP, hsplit]] at h
      rw [tcSubP_expose rest ws b sub hsplit] at h
      obtain ⟨e1, e2, e3⟩ := wsBracketSplit_spec rest ws b sub hsplit
      cases ws with
      | nil =>
        simp only [List.nil_append] at h
        obtain ⟨heq, _⟩ := List.cons.inj h
        subst heq
        right
        rcases e3 with rfl | rfl
        · right; left; rfl
        · right; right; rfl
      | cons w0 wrest =>
        simp only [List.cons_append] at h
        obtain ⟨heq, _⟩ := List.cons.inj h
        subst heq
        right; left
        exact e2 w0 (List.mem_cons_self w0 wrest)
  · rw [show tcSubP (c :: rest) = c :: tcSubP rest by simp [tcSubP, hc]] at h
    exact Or.inl (List.cons.inj h).1.symm

theorem space_not_digit (c : Char) (h : isSpaceRe c = true) : jsonDigit c = false := by
  simp only [isSpaceRe, decide_eq_true_eq] at h
  simp only [jsonDigit, decide_eq_false_iff_not, not_and, not_le]
  omega

theorem space_ne (c : Char) (d : Char) (h : isSpaceRe c = true) (hd : isSpaceRe d = false) :
    c ≠ d := by
  intro hc
  subst hc
  rw [h] at hd
  exact absurd hd (by simp)

theorem bracket_not_digit (c : Char) (h : c = '\x7d' ∨ c = ']') : jsonDigit c = false := by
  rcases h with rfl | rfl <;> decide

theorem sd_digit (c : Char) (t : List Char) (h : jsonDigit c = true) :
    skipDigits (c :: t) = skipDigits t := by
  simp [skipDigits, h]

theorem sd_stop (c : Char) (t : List Char) (h : jsonDigit c = false) :
    skipDigits (c :: t) = c :: t := by
  simp [skipDigits, h]

theorem skipDigits_sim (u : List Char) : skipDigits (tcSubP u) = tcSubP (skipDigits u) := by
  induction u with
  | nil => simp [tcSubP, skipDigits]
  | cons c rest ih =>
    by_cases hd : jsonDigit c = true
    · rw [tcSubP_cons_keep c rest (jsonDigit_ne_comma c hd), sd_digit c rest hd,
        sd_digit c (tcSubP rest) hd]
      exact ih
    · rw [sd_stop c rest (eq_false_of_ne_true hd)]
      cases hshape : tcSubP (c :: rest) with
      | nil => exact absurd hshape (tcSubP_ne_nil (c :: rest) c rest rfl)
      | cons c' t' =>
        rcases tcSubP_head c rest c' t' hshape with rfl | hexp
        · rw [sd_stop c' t' (eq_false_of_ne_true hd)]
        · rw [sd_stop c' t' ?_]
          rcases hexp with hsp | hbr
          · exact space_not_digit c' hsp
          · exact bracket_not_digit c' hbr

theorem skipDigits_length (u : List Char) : (skipDigits u).length ≤ u.length := by
  induction u with
  | nil => simp [skipDigits]
  | cons c rest ih =>
    by_cases hd : jsonDigit c = true
    · rw [sd_digit c rest hd]
      exact Nat.le_succ_of_le ih
    · rw [sd_stop c rest (eq_false_of_ne_true hd)]

theorem tcSubP_head_not (c : Char) (rest : List Char) (d : Char)
    (hd1 : c ≠ d) (hd2 : isSpaceRe d = false) (hd3 : d ≠ '\x7d') (hd4 : d ≠ ']') :
    ∀ t0, tcSubP (c :: rest) ≠ d :: t0 := by
  intro t0 h
  rcases tcSubP_head c rest d t0 h with heq | hsp | hbr1 | hbr2
  · exact hd1 heq.symm
  · rw [hsp] at hd2; exact absurd hd2 (by simp)
  · exact hd3 hbr1
  · exact hd4 hbr2

theorem pip_zero (r : List Char) : parseIntPart ('0' :: r) = some r := by
  simp [parseIntPart]

theorem pip_digit (c : Char) (r : List Char) (h0 : ¬c = '0') (hd : jsonDigit c = true) :
    parseIntPart (c :: r) = some (skipDigits r) := by
  simp [parseIntPart, h0, hd]

theorem pip_cases (u r : List Char) (h : parseIntPart u = some r) :
    ∃ c t, u = c :: t ∧ jsonDigit c = true
      ∧ ((c = '0' ∧ r = t) ∨ (¬c = '0' ∧ r = skipDigits t)) := by
  cases u with
  | nil => simp [parseIntPart] at h
  | cons c t =>
    by_cases h0 : c = '0'
    · subst h0
      rw [pip_zero] at h
      exact ⟨'0', t, rfl, by decide, Or.inl ⟨rfl, (Option.some.inj h).symm⟩⟩
    · by_cases hd : jsonDigit c = true
      · rw [pip_digit c t h0 hd] at h
        exact ⟨c, t, rfl, hd, Or.inr ⟨h0, (Option.some.inj h).symm⟩⟩
      · rw [show parseIntPart (c :: t) = none by
          simp [parseIntPart, h0, eq_false_of_ne_true hd]] at h
        exact absurd h (by simp)

theorem parseIntPart_sim (u r : List Char) (h : parseIntPart u = some r) :
    parseIntPart (tcSubP u) = some (tcSubP r) := by
  obtain ⟨c, t, rfl, hd, hcase⟩ := pip_cases u r h
  rw [tcSubP_cons_keep c t (jsonDigit_ne_comma c hd)]
  rcases hcase with ⟨rfl, rfl⟩ | ⟨h0, rfl⟩
  · rw [pip_zero]
  · rw [pip_digit c (tcSubP t) h0 hd, skipDigits_sim]

theorem parseIntPart_len (u r : List Char) (h : parseIntPart u = some r) :
    r.length < u.length := by
  obtain ⟨c, t, rfl, hd, hcase⟩ := pip_cases u r h
  rcases hcase with ⟨rfl, rfl⟩ | ⟨h0, rfl⟩
  · simp
  · have := skipDigits_length t
    simp only [List.length_cons]
    omega

theorem pfp_dot (c : Char) (r : List Char) (h : jsonDigit c = true) :
    parseFracPart ('.' :: c :: r) = some (skipDigits r) := by
  simp [parseFracPart, h]

theorem pfp_default (u : List Char) (hne : ∀ t0, u ≠ '.' :: t0) :
    parseFracPart u = some u := by
  cases u with
  | nil => simp [parseFracPart]
  | cons c0 t =>
    have hc0 : c0 ≠ '.' := fun h => hne t (by rw [h])
    rw [parseFracPart.eq_def]
    split
    · next heq => exact absurd (List.cons.inj heq).1 hc0
    · next heq => exact absurd (List.cons.inj heq).1 hc0
    · rfl

theorem pfp_cases (u r : List Char) (h : parseFracPart u = some r) :
    (∃ c t, u = '.' :: c :: t ∧ jsonDigit c = true ∧ r = skipDigits t)
    ∨ ((∀ t0, u ≠ '.' :: t0) ∧ r = u) := by
  cases u with
  | nil =>
    right
    refine ⟨by simp, ?_⟩
    rw [pfp_default [] (by simp)] at h
    exact (Option.some.inj h).symm
  | cons c0 t =>
    by_cases hc0 : c0 = '.'
    · subst hc0
      cases t with
      | nil =>
        rw [show parseFracPart ['.'] = none by simp [parseFracPart]] at h
        exact absurd h (by simp)
      | cons c1 t1 =>
        by_cases hd : jsonDigit c1 = true
        · rw [pfp_dot c1 t1 hd] at h
          exact Or.inl ⟨c1, t1, rfl, hd, (Option.some.inj h).symm⟩
        · rw [show parseFracPart ('.' :: c1 :: t1) = none by
            simp [parseFracPart, eq_false_of_ne_true hd]] at h
          exact absurd h (by simp)
    · right
      refine ⟨fun t0 heq => hc0 (List.cons.inj heq).1, ?_⟩
      rw [pfp_default (c0 :: t) (fun t0 heq => hc0 (List.cons.inj heq).1)] at h
      exact (Option.some.inj h).symm

theorem parseFracPart_sim (u r : List Char) (h : parseFracPart u = some r) :
    parseFracPart (tcSubP u) = some (tcSubP r) := by
  rcases pfp_cases u r h with ⟨c, t, rfl, hd, rfl⟩ | ⟨hne, rfl⟩
  · rw [tcSubP_cons_keep '.' _ (by decide), tcSubP_cons_keep c t (jsonDigit_ne_comma c hd),
      pfp_dot c (tcSubP t) hd, skipDigits_sim]
  · cases r with
    | nil => exact pfp_default [] (by simp)
    | cons c0 t =>
      have hc0 : c0 ≠ '.' := fun heq => hne t (by rw [heq])
      exact pfp_default (tcSubP (c0 :: t))
        (tcSubP_head_not c0 t '.' hc0 (by decide) (by decide) (by decide))

theorem parseFracPart_len (u r : List Char) (h : parseFracPart u = some r) :
    r.length ≤ u.length := by
  rcases pfp_cases u r h with ⟨c, t, rfl, hd, rfl⟩ | ⟨_, rfl⟩
  · have := skipDigits_length t
    simp only [List.length_cons]
    omega
  · exact Nat.le_refl _

theorem digit_ne_plus (c : Char) (h : jsonDigit c = true) : c ≠ '+' := by
  intro hc; subst hc; simp [jsonDigit] at h

theorem digit_ne_minus (c : Char) (h : jsonDigit c = true) : c ≠ '-' := by
  intro hc; subst hc; simp [jsonDigit] at h

theorem pep_nil : parseExpPart [] = some [] := by
  simp [parseExpPart]

theorem pep_default (e : Char) (rest : List Char) (he : ¬(e = 'e' ∨ e = 'E')) :
    parseExpPart (e :: rest) = some (e :: rest) := by
  simp [parseExpPart, he]

theorem pep_exp (e : Char) (rest : List Char) (he : e = 'e' ∨ e = 'E') :
    parseExpPart (e :: rest) = parseExpTail rest := by
  simp [parseExpPart, he]

theorem pet_sign (s c : Char) (t : List Char) (hs : s = '+' ∨ s = '-')
    (hd : jsonDigit c = true) : parseExpTail (s :: c :: t) = some (skipDigits t) := by
  rcases hs with rfl | rfl <;> simp [parseExpTail, hd]

theorem pet_bare (c : Char) (t : List Char) (hplus : c ≠ '+') (hminus : c ≠ '-')
    (hd : jsonDigit c = true) : parseExpTail (c :: t) = some (skipDigits t) := by
  rw [parseExpTail.eq_def]
  split
  · next heq => exact absurd (List.cons.inj heq).1 hplus
  · next heq => exact absurd (List.cons.inj heq).1 hminus
  · next c2 r2 hne1 hne2 heq =>
    obtain ⟨rfl, rfl⟩ := List.cons.inj heq
    simp [hd]
  · next heq => exact absurd heq (by simp)

theorem pet_cases (u r : List Char) (h : parseExpTail u = some r) :
    (∃ s c t, u = s :: c :: t ∧ (s = '+' ∨ s = '-') ∧ jsonDigit c = true ∧ r = skipDigits t)
    ∨ (∃ c t, u = c :: t ∧ c ≠ '+' ∧ c ≠ '-' ∧ jsonDigit c = true ∧ r = skipDigits t) := by
  cases u with
  | nil => simp [parseExpTail] at h
  | cons s t1 =>
    by_cases hplus : s = '+'
    · subst hplus
      cases t1 with
      | nil => simp +decide [parseExpTail] at h
      | cons c2 t2 =>
        by_cases hd : jsonDigit c2 = true
        · rw [pet_sign '+' c2 t2 (Or.inl rfl) hd] at h
          exact Or.inl ⟨'+', c2, t2, rfl, Or.inl rfl, hd, (Option.some.inj h).symm⟩
        · rw [show parseExpTail ('+' :: c2 :: t2) = none by
            simp [parseExpTail, eq_false_of_ne_true hd]] at h
          exact absurd h (by simp)
    · by_cases hminus : s = '-'
      · subst hminus
        cases t1 with
        | nil => simp +decide [parseExpTail] at h
        | cons c2 t2 =>
          by_cases hd : jsonDigit c2 = true
          · rw [pet_sign '-' c2 t2 (Or.inr rfl) hd] at h
            exact Or.inl ⟨'-', c2, t2, rfl, Or.inr rfl, hd, (Option.some.inj h).symm⟩
          · rw [show parseExpTail ('-' :: c2 :: t2) = none by
              simp [parseExpTail, eq_false_of_ne_true hd]] at h
            exact absurd h (by simp)
      · by_cases hd : jsonDigit s = true
        · rw [pet_bare s t1 hplus hminus hd] at h
          exact Or.inr ⟨s, t1, rfl, hplus, hminus, hd, (Option.some.inj h).symm⟩
        · rw [show parseExpTail (s :: t1) = none by
            rw [parseExpTail.eq_def]
            split
            · next heq => exact absurd (List.cons.inj heq).1 hplus
            · next heq => exact absurd (List.cons.inj heq).1 hminus
            · next c2 r2 hne1 hne2 heq =>
              obtain ⟨rfl, rfl⟩ := List.cons.inj heq
              simp [eq_false_of_ne_true hd]
            · next heq => exact absurd heq (by simp)] at h
          exact absurd h (by simp)

theorem pep_cases (u r : List Char) (h : parseExpPart u = some r) :
    (u = [] ∧ r = [])
    ∨ (∃ e rest, u = e :: rest ∧ ¬(e = 'e' ∨ e = 'E') ∧ r = u)
    ∨ (∃ e s c t, u = e :: s :: c :: t ∧ (e = 'e' ∨ e = 'E') ∧ (s = '+' ∨ s = '-')
        ∧ jsonDigit c = true ∧ r = skipDigits t)
    ∨ (∃ e c t, u = e :: c :: t ∧ (e = 'e' ∨ e = 'E') ∧ c ≠ '+' ∧ c ≠ '-'
        ∧ jsonDigit c = true ∧ r = skipDigits t) := by
  cases u with
  | nil =>
    rw [pep_nil] at h
    exact Or.inl ⟨rfl, (Option.some.inj h).symm⟩
  | cons e rest =>
    by_cases he : e = 'e' ∨ e = 'E'
    · rw [pep_exp e rest he] at h
      rcases pet_cases rest r h with ⟨s, c, t, rfl, hs, hd, rfl⟩ | ⟨c, t, rfl, hplus, hminus, hd, rfl⟩
      · exact Or.inr (Or.inr (Or.inl ⟨e, s, c, t, rfl, he, hs, hd, rfl⟩))
      · exact Or.inr (Or.inr (Or.inr ⟨e, c, t, rfl, he, hplus, hminus, hd, rfl⟩))
    · rw [pep_default e rest he] at h
      exact Or.inr (Or.inl ⟨e, rest, rfl, he, (Option.some.inj h).symm⟩)

theorem exp_ne_comma (e : Char) (he : e = 'e' ∨ e = 'E') : e ≠ ',' := by
  rcases he with rfl | rfl <;> decide

theorem sign_ne_comma (s : Char) (hs : s = '+' ∨ s = '-') : s ≠ ',' := by
  rcases hs with rfl | rfl <;> decide

theorem parseExpPart_sim (u r : List Char) (h : parseExpPart u = some r) :
    parseExpPart (tcSubP u) = some (tcSubP r) := by
  rcases pep_cases u r h with ⟨rfl, rfl⟩ | ⟨e, rest, rfl, he, rfl⟩
    | ⟨e, s, c, t, rfl, he, hs, hd, rfl⟩ | ⟨e, c, t, rfl, he, hplus, hminus, hd, rfl⟩
  · exact pep_nil
  · cases hshape : tcSubP (e :: rest) with
    | nil => exact absurd hshape (tcSubP_ne_nil (e :: rest) e rest rfl)
    | cons c2 t2 =>
      have hnot : ¬(c2 = 'e' ∨ c2 = 'E') := by
        rcases tcSubP_head e rest c2 t2 hshape with heq | hsp | hbr1 | hbr2
        · rw [heq]; exact he
        · rintro (rfl | rfl) <;> simp [isSpaceRe] at hsp
        · subst hbr1; rintro (hx | hx) <;> exact absurd hx (by decide)
        · subst hbr2; rintro (hx | hx) <;> exact absurd hx (by decide)
      exact pep_default c2 t2 hnot
  · rw [tcSubP_cons_keep e _ (exp_ne_comma e he), tcSubP_cons_keep s _ (sign_ne_comma s hs),
      tcSubP_cons_keep c t (jsonDigit_ne_comma c hd), pep_exp e _ he,
      pet_sign s c (tcSubP t) hs hd, skipDigits_sim]
  · rw [tcSubP_cons_keep e _ (exp_ne_comma e he),
      tcSubP_cons_keep c t (jsonDigit_ne_comma c hd), pep_exp e _ he,
      pet_bare c (tcSubP t) hplus hminus hd, skipDigits_sim]

theorem parseExpPart_len (u r : List Char) (h : parseExpPart u = some r) :
    r.length ≤ u.length := by
  rcases pep_cases u r h with ⟨rfl, rfl⟩ | ⟨e, rest, rfl, he, rfl⟩
    | ⟨e, s, c, t, rfl, he, hs, hd, rfl⟩ | ⟨e, c, t, rfl, he, hplus, hminus, hd, rfl⟩
  · simp
  · exact Nat.le_refl _
  · have := skipDigits_length t
    simp only [List.length_cons]
    omega
  · have := skipDigits_length t
    simp only [List.length_cons]
    omega

theorem ss_minus (r : List Char) : stripSign ('-' :: r) = r := by
  simp [stripSign]

theorem ss_other (u : List Char) (h : ∀ r, u ≠ '-' :: r) : stripSign u = u := by
  rw [stripSign.eq_def]
  split
  · exact absurd rfl (h _)
  · rfl

theorem stripSign_length (u : List Char) : (stripSign u).length ≤ u.length := by
  cases u with
  | nil => simp [stripSign]
  | cons c t =>
    by_cases hm : c = '-'
    · subst hm; rw [ss_minus]; simp
    · rw [ss_other (c :: t) (fun r heq => hm (List.cons.inj heq).1)]

theorem parseNumber_sim (u r : List Char) (h : parseNumber u = some r) :
    parseNumber (tcSubP u) = some (tcSubP r) := by
  simp only [parseNumber, Option.bind_eq_some] at h
  obtain ⟨r2, ⟨r1, h1, h2⟩, h3⟩ := h
  have hstrip : stripSign (tcSubP u) = tcSubP (stripSign u) := by
    cases u with
    | nil =>
      rw [show stripSign ([] : List Char) = [] from rfl] at h1
      simp [parseIntPart] at h1
    | cons c0 t =>
      by_cases hm : c0 = '-'
      · subst hm
        rw [tcSubP_cons_keep '-' t (by decide), ss_minus, ss_minus]
      · rw [ss_other (c0 :: t) (fun r heq => hm (List.cons.inj heq).1)] at h1 ⊢
        obtain ⟨c, t2, heq, hd, _⟩ := pip_cases _ _ h1
        obtain ⟨rfl, rfl⟩ := List.cons.inj heq
        rw [tcSubP_cons_keep c0 t (jsonDigit_ne_comma c0 hd)]
        rw [ss_other (c0 :: tcSubP t) (fun r heq2 => (digit_ne_minus c0 hd) (List.cons.inj heq2).1)]
  simp only [parseNumber, Option.bind_eq_some]
  exact ⟨tcSubP r2, ⟨tcSubP r1, by rw [hstrip]; exact parseIntPart_sim _ _ h1,
    parseFracPart_sim _ _ h2⟩, parseExpPart_sim _ _ h3⟩

theorem parseNumber_len (u r : List Char) (h : parseNumber u = some r) :
    r.length ≤ u.length := by
  simp only [parseNumber, Option.bind_eq_some] at h
  obtain ⟨r2, ⟨r1, h1, h2⟩, h3⟩ := h
  have i1 := parseIntPart_len _ _ h1
  have i2 := parseFracPart_len _ _ h2
  have i3 := parseExpPart_len _ _ h3
  have i4 := stripSign_length u
  omega

theorem prefixChars_elim (n : List Char) :
    ∀ rest, prefixChars n rest = true → ∃ r2, rest = n ++ r2 := by
  induction n with
  | nil => intro rest h; exact ⟨rest, rfl⟩
  | cons a as ih =>
    intro rest h
    cases rest with
    | nil => simp [prefixChars] at h
    | cons b bs =>
      simp only [prefixChars, Bool.and_eq_true, beq_iff_eq] at h
      obtain ⟨rfl, h2⟩ := h
      obtain ⟨r2, rfl⟩ := ih bs h2
      exact ⟨r2, rfl⟩

theorem pv_zero (u : List Char) : parseValue 0 u = none := rfl

theorem pv_nil (f : Nat) : parseValue f [] = none := by cases f <;> rfl

theorem pv_unfold (f : Nat) (c : Char) (t : List Char) :
    parseValue (f + 1) (c :: t) =
      (if c = '"' then parseStringBody t
       else if c = 't' then
         if prefixChars ['r', 'u', 'e'] t then some (t.drop 3) else none
       else if c = 'f' then
         if prefixChars ['a', 'l', 's', 'e'] t then some (t.drop 4) else none
       else if c = 'n' then
         if prefixChars ['u', 'l', 'l'] t then some (t.drop 3) else none
       else if c = '[' then
         match skipJsonWs t with
         | ']' :: r => some r
         | s1 => parseElements f s1
       else if c = '\x7b' then
         match skipJsonWs t with
         | '\x7d' :: r => some r
         | s1 => parseMembers f s1
       else if c = '-' ∨ jsonDigit c = true then parseNumber (c :: t)
       else none) := rfl

theorem pe_zero (u : List Char) : parseElements 0 u = none := rfl

theorem pe_unfold (f : Nat) (u : List Char) :
    parseElements (f + 1) u =
      (match parseValue f u with
       | none => none
       | some r =>
         match skipJsonWs r with
         | ',' :: r2 => parseElements f (skipJsonWs r2)
         | ']' :: r2 => some r2
         | _ => none) := rfl

theorem pm_zero (u : List Char) : parseMembers 0 u = none := rfl

theorem pm_unfold (f : Nat) (u : List Char) :
    parseMembers (f + 1) u =
      (match u with
       | '"' :: srest =>
         match parseStringBody srest with
         | none => none
         | some r =>
           match skipJsonWs r with
           | ':' :: r2 =>
             match parseValue f (skipJsonWs r2) with
             | none => none
             | some r3 =>
               match skipJsonWs r3 with
               | ',' :: r4 => parseMembers f (skipJsonWs r4)
               | '\x7d' :: r4 => some r4
               | _ => none
           | _ => none
       | _ => none) := rfl

theorem digit_not_space (c : Char) (h : jsonDigit c = true) : isSpaceRe c = false := by
  simp only [jsonDigit, decide_eq_true_eq] at h
  simp only [isSpaceRe, decide_eq_false_iff_not]
  omega

theorem digit_not_jsonWs (c : Char) (h : jsonDigit c = true) :
    jsonWsChars.contains c = false := by
  by_contra hcon
  simp only [Bool.not_eq_false] at hcon
  have := jsonWs_isSpace c hcon
  rw [digit_not_space c h] at this
  exact absurd this (by simp)

theorem digit_ne_rbrace (c : Char) (h : jsonDigit c = true) : c ≠ '\x7d' := by
  intro hc; subst hc; simp [jsonDigit] at h

theorem digit_ne_rbrack (c : Char) (h : jsonDigit c = true) : c ≠ ']' := by
  intro hc; subst hc; simp [jsonDigit] at h

theorem parseValue_start (f : Nat) (u r : List Char) (h : parseValue f u = some r) :
    ∃ c t, u = c :: t ∧ isSpaceRe c = false ∧ c ≠ '\x7d' ∧ c ≠ ']' ∧ c ≠ ','
      ∧ jsonWsChars.contains c = false := by
  cases f with
  | zero => rw [pv_zero] at h; exact absurd h (by simp)
  | succ f =>
    cases u with
    | nil => rw [pv_nil] at h; exact absurd h (by simp)
    | cons c t =>
      refine ⟨c, t, rfl, ?_⟩
      by_cases h1 : c = '"'
      · subst h1; refine ⟨by decide, by decide, by decide, by decide, by decide⟩
      · by_cases h2 : c = 't'
        · subst h2; refine ⟨by decide, by decide, by decide, by decide, by decide⟩
        · by_cases h3 : c = 'f'
          · subst h3; refine ⟨by decide, by decide, by decide, by decide, by decide⟩
          · by_cases h4 : c = 'n'
            · subst h4; refine ⟨by decide, by decide, by decide, by decide, by decide⟩
            · by_cases h5 : c = '['
              · subst h5; refine ⟨by decide, by decide, by decide, by decide, by decide⟩
              · by_cases h6 : c = '\x7b'
                · subst h6; refine ⟨by decide, by decide, by decide, by decide, by decide⟩
                · by_cases h7 : c = '-' ∨ jsonDigit c = true
                  · rcases h7 with rfl | hd
                    · refine ⟨by decide, by decide, by decide, by decide, by decide⟩
                    · exact ⟨digit_not_space c hd, digit_ne_rbrace c hd, digit_ne_rbrack c hd,
                        jsonDigit_ne_comma c hd, digit_not_jsonWs c hd⟩
                  · rw [pv_unfold, if_neg h1, if_neg h2, if_neg h3, if_neg h4, if_neg h5,
                      if_neg h6, if_neg h7] at h
                    exact absurd h (by simp)

theorem space_not_bracket (c : Char) (h : isSpaceRe c = true) : ¬(c = '\x7d' ∨ c = ']') := by
  rintro (rfl | rfl) <;> simp [isSpaceRe] at h

theorem wbs_none (w : List Char) (c : Char) (t : List Char)
    (hw : ∀ x ∈ w, isSpaceRe x = true) (h1 : isSpaceRe c = false)
    (h2 : ¬(c = '\x7d' ∨ c = ']')) : wsBracketSplit (w ++ c :: t) = none := by
  induction w with
  | nil =>
    simp only [List.nil_append, wsBracketSplit]
    rw [if_neg h2, if_neg (by simp [h1])]
  | cons x w ih =>
    have hx := hw x (List.mem_cons_self x w)
    simp only [List.cons_append, wsBracketSplit]
    rw [if_neg (space_not_bracket x hx), if_pos hx]
    simp only [List.append_eq]
    rw [ih (fun y hy => hw y (List.mem_cons_of_mem x hy))]

theorem skip_tcSubP_commute (x : List Char) (c3 : Char) (t3 : List Char)
    (hsk : skipJsonWs x = c3 :: t3) (hc3 : c3 ≠ ',')
    (hns : jsonWsChars.contains c3 = false) :
    skipJsonWs (tcSubP x) = c3 :: tcSubP t3 := by
  obtain ⟨w, hw, hall⟩ := skipJsonWs_spec x
  rw [hsk] at hw
  rw [hw, tcSubP_copy w _ (fun y hy => jsonWs_ne_comma y (hall y hy)),
    skipJsonWs_append_ws w _ hall, tcSubP_cons_keep c3 t3 hc3,
    skipJsonWs_not_ws c3 _ hns]

theorem skip_tcSubP_commute_comma (x : List Char) (t3 : List Char)
    (hsk : skipJsonWs x = ',' :: t3) (hwbs : wsBracketSplit t3 = none) :
    skipJsonWs (tcSubP x) = ',' :: tcSubP t3 := by
  obtain ⟨w, hw, hall⟩ := skipJsonWs_spec x
  rw [hsk] at hw
  have hkeep : tcSubP (',' :: t3) = ',' :: tcSubP t3 := by
    simp [tcSubP, hwbs]
  rw [hw, tcSubP_copy w _ (fun y hy => jsonWs_ne_comma y (hall y hy)),
    skipJsonWs_append_ws w _ hall, hkeep,
    skipJsonWs_not_ws ',' _ (by decide)]

theorem pe_first (f : Nat) (u r : List Char) (h : parseElements f u = some r) :
    ∃ f2 r2, parseValue f2 u = some r2 := by
  cases f with
  | zero => rw [pe_zero] at h; exact absurd h (by simp)
  | succ f =>
    rw [pe_unfold] at h
    cases hv : parseValue f u with
    | none => rw [hv] at h; exact absurd h (by simp)
    | some r1 => exact ⟨f, r1, hv⟩

theorem pm_start (f : Nat) (u r : List Char) (h : parseMembers f u = some r) :
    ∃ srest, u = '"' :: srest := by
  cases f with
  | zero => rw [pm_zero] at h; exact absurd h (by simp)
  | succ f =>
    rw [pm_unfold] at h
    cases u with
    | nil => exact absurd h (by simp)
    | cons c t =>
      by_cases hc : c = '"'
      · exact ⟨t, by rw [hc]⟩
      · exfalso
        split at h
        · next heq =>
          exact hc (List.cons.inj heq).1
        · exact absurd h (by simp)

theorem prefixChars_self (lit x : List Char) : prefixChars lit (lit ++ x) = true := by
  induction lit with
  | nil => simp [prefixChars]
  | cons a as ih => simp [prefixChars, ih]

theorem parse_sim : ∀ f : Nat,
    (∀ u r, parseValue f u = some r → parseValue f (tcSubP u) = some (tcSubP r))
    ∧ (∀ u r, parseElements f u = some r → parseElements f (tcSubP u) = some (tcSubP r))
    ∧ (∀ u r, parseMembers f u = some r → parseMembers f (tcSubP u) = some (tcSubP r)) := by
  intro f
  induction f with
  | zero =>
    refine ⟨?_, ?_, ?_⟩ <;> intro u r h
    · rw [pv_zero] at h; exact absurd h (by simp)
    · rw [pe_zero] at h; exact absurd h (by simp)
    · rw [pm_zero] at h; exact absurd h (by simp)
  | succ f ih =>
    obtain ⟨ihV, ihE, ihM⟩ := ih
    refine ⟨?_, ?_, ?_⟩
    · -- parseValue
      intro u r h
      cases u with
      | nil => rw [pv_nil] at h; exact absurd h (by simp)
      | cons c t =>
        by_cases h1 : c = '"'
        · subst h1
          have h' : parseStringBody t = some r := h
          rw [tcSubP_cons_keep '"' t (by decide)]
          show parseStringBody (tcSubP t) = some (tcSubP r)
          exact parseStringBody_sim t r h'
        · by_cases h2 : c = 't'
          · subst h2
            have h' : (if prefixChars ['r', 'u', 'e'] t then some (t.drop 3) else none)
                = some r := h
            by_cases hp : prefixChars ['r', 'u', 'e'] t = true
            · rw [if_pos hp] at h'
              obtain ⟨r2, rfl⟩ := prefixChars_elim ['r', 'u', 'e'] t hp
              have hr2 : r = r2 := by
                have hh := Option.some.inj h'
                simpa using hh.symm
              subst hr2
              rw [tcSubP_cons_keep 't' _ (by decide)]
              rw [show tcSubP (['r', 'u', 'e'] ++ r) = ['r', 'u', 'e'] ++ tcSubP r from
                tcSubP_copy _ _ (by decide)]
              show (if prefixChars ['r', 'u', 'e'] (['r', 'u', 'e'] ++ tcSubP r) then
                some ((['r', 'u', 'e'] ++ tcSubP r).drop 3) else none) = some (tcSubP r)
              rw [if_pos (prefixChars_self _ _)]
              simp
            · rw [if_neg hp] at h'; exact absurd h' (by simp)
          · by_cases h3 : c = 'f'
            · subst h3
              have h' : (if prefixChars ['a', 'l', 's', 'e'] t then some (t.drop 4) else none)
                  = some r := h
              by_cases hp : prefixChars ['a', 'l', 's', 'e'] t = true
              · rw [if_pos hp] at h'
                obtain ⟨r2, rfl⟩ := prefixChars_elim ['a', 'l', 's', 'e'] t hp
                have hr2 : r = r2 := by
                  have hh := Option.some.inj h'
                  simpa using hh.symm
                subst hr2
                rw [tcSubP_cons_keep 'f' _ (by decide)]
                rw [show tcSubP (['a', 'l', 's', 'e'] ++ r) = ['a', 'l', 's', 'e'] ++ tcSubP r from
                  tcSubP_copy _ _ (by decide)]
                show (if prefixChars ['a', 'l', 's', 'e'] (['a', 'l', 's', 'e'] ++ tcSubP r) then
                  some ((['a', 'l', 's', 'e'] ++ tcSubP r).drop 4) else none) = some (tcSubP r)
                rw [if_pos (prefixChars_self _ _)]
                simp
              · rw [if_neg hp] at h'; exact absurd h' (by simp)
            · by_cases h4 : c = 'n'
              · subst h4
                have h' : (if prefixChars ['u', 'l', 'l'] t then some (t.drop 3) else none)
                    = some r := h
                by_cases hp : prefixChars ['u', 'l', 'l'] t = true
                · rw [if_pos hp] at h'
                  obtain ⟨r2, rfl⟩ := prefixChars_elim ['u', 'l', 'l'] t hp
                  have hr2 : r = r2 := by
                    have hh := Option.some.inj h'
                    simpa using hh.symm
                  subst hr2
                  rw [tcSubP_cons_keep 'n' _ (by decide)]
                  rw [show tcSubP (['u', 'l', 'l'] ++ r) = ['u', 'l', 'l'] ++ tcSubP r from
                    tcSubP_copy _ _ (by decide)]
                  show (if prefixChars ['u', 'l', 'l'] (['u', 'l', 'l'] ++ tcSubP r) then
                    some ((['u', 'l', 'l'] ++ tcSubP r).drop 3) else none) = some (tcSubP r)
                  rw [if_pos (prefixChars_self _ _)]
                  simp
                · rw [if_neg hp] at h'; exact absurd h' (by simp)
              · by_cases h5 : c = '['
                · subst h5
                  have h' : (match skipJsonWs t with
                    | ']' :: r2 => some r2
                    | s1 => parseElements f s1) = some r := h
                  obtain ⟨w, hw, hall⟩ := skipJsonWs_spec t
                  cases hsk : skipJsonWs t with
                  | nil =>
                    rw [hsk] at h'
                    have : parseElements f [] = some r := h'
                    rw [show parseElements f ([] : List Char) = none by
                      cases f
                      · rfl
                      · rw [pe_unfold, pv_nil]] at this
                    exact absurd this (by simp)
                  | cons c1 t1 =>
                    rw [hsk] at hw
                    by_cases hc1 : c1 = ']'
                    · subst hc1
                      rw [hsk] at h'
                      have hr : r = t1 := (Option.some.inj h').symm
                      subst hr
                      rw [tcSubP_cons_keep '[' t (by decide)]
                      show (match skipJsonWs (tcSubP t) with
                        | ']' :: r2 => some r2
                        | s1 => parseElements f s1) = some (tcSubP r)
                      rw [skip_tcSubP_commute t ']' r hsk (by decide) (by decide)]
                      rfl
                    · rw [hsk] at h'
                      have hne : parseElements f (c1 :: t1) = some r := by
                        split at h'
                        · next heq => exact absurd (List.cons.inj heq).1 hc1
                        · exact h'
                      obtain ⟨f2, r2, hv2⟩ := pe_first f (c1 :: t1) r hne
                      obtain ⟨c2, t2, heq2, hsp2, hbr2, hbk2, hcm2, hws2⟩ :=
                        parseValue_start f2 (c1 :: t1) r2 hv2
                      rw [heq2] at hne hsk
                      rw [tcSubP_cons_keep '[' t (by decide)]
                      show (match skipJsonWs (tcSubP t) with
                        | ']' :: r2 => some r2
                        | s1 => parseElements f s1) = some (tcSubP r)
                      rw [skip_tcSubP_commute t c2 t2 hsk hcm2 hws2]
                      have htr := ihE (c2 :: t2) r hne
                      rw [tcSubP_cons_keep c2 t2 hcm2] at htr
                      split
                      · next heq =>
                        exact absurd (List.cons.inj heq).1 hbk2
                      · exact htr
                · by_cases h6 : c = '\x7b'
                  · subst h6
                    have h' : (match skipJsonWs t with
                      | '\x7d' :: r2 => some r2
                      | s1 => parseMembers f s1) = some r := h
                    cases hsk : skipJsonWs t with
                    | nil =>
                      rw [hsk] at h'
                      have : parseMembers f [] = some r := h'
                      rw [show parseMembers f ([] : List Char) = none by
                        cases f
                        · rfl
                        · rw [pm_unfold]] at this
                      exact absurd this (by simp)
                    | cons c1 t1 =>
                      by_cases hc1 : c1 = '\x7d'
                      · subst hc1
                        rw [hsk] at h'
                        have hr : r = t1 := (Option.some.inj h').symm
                        subst hr
                        rw [tcSubP_cons_keep '\x7b' t (by decide)]
                        show (match skipJsonWs (tcSubP t) with
                          | '\x7d' :: r2 => some r2
                          | s1 => parseMembers f s1) = some (tcSubP r)
                        rw [skip_tcSubP_commute t '\x7d' r hsk (by decide) (by decide)]
                        rfl
                      · rw [hsk] at h'
                        have hne : parseMembers f (c1 :: t1) = some r := by
                          split at h'
                          · next heq => exact absurd (List.cons.inj heq).1 hc1
                          · exact h'
                        obtain ⟨srest, heqs⟩ := pm_start f (c1 :: t1) r hne
                        rw [heqs] at hne hsk
                        rw [tcSubP_cons_keep '\x7b' t (by decide)]
                        show (match skipJsonWs (tcSubP t) with
                          | '\x7d' :: r2 => some r2
                          | s1 => parseMembers f s1) = some (tcSubP r)
                        rw [skip_tcSubP_commute t '"' srest hsk (by decide) (by decide)]
                        have htr := ihM ('"' :: srest) r hne
                        rw [tcSubP_cons_keep '"' srest (by decide)] at htr
                        exact htr
                  · by_cases h7 : c = '-' ∨ jsonDigit c = true
                    · have hcm : c ≠ ',' := by
                        rcases h7 with rfl | hd
                        · decide
                        · exact jsonDigit_ne_comma c hd
                      rw [pv_unfold, if_neg h1, if_neg h2, if_neg h3, if_neg h4, if_neg h5,
                        if_neg h6, if_pos h7] at h
                      rw [tcSubP_cons_keep c t hcm]
                      rw [pv_unfold, if_neg h1, if_neg h2, if_neg h3, if_neg h4, if_neg h5,
                        if_neg h6, if_pos h7]
                      have := parseNumber_sim (c :: t) r h
                      rw [tcSubP_cons_keep c t hcm] at this
                      exact this
                    · rw [pv_unfold, if_neg h1, if_neg h2, if_neg h3, if_neg h4, if_neg h5,
                        if_neg h6, if_neg h7] at h
                      exact absurd h (by simp)
    · -- parseElements
      intro u r h
      rw [pe_unfold] at h
      cases hv : parseValue f u with
      | none => rw [hv] at h; exact absurd h (by simp)
      | some r1 =>
        rw [hv] at h
        replace h : (match skipJsonWs r1 with
          | ',' :: r2 => parseElements f (skipJsonWs r2)
          | ']' :: r2 => some r2
          | _ => none) = some r := h
        obtain ⟨c0, t0, rfl, hsp0, hbr0, hbk0, hcm0, hws0⟩ := parseValue_start f _ r1 hv
        have hv' := ihV _ r1 hv
        rw [pe_unfold, hv']
        show (match skipJsonWs (tcSubP r1) with
          | ',' :: r2 => parseElements f (skipJsonWs r2)
          | ']' :: r2 => some r2
          | _ => none) = some (tcSubP r)
        cases hsk : skipJsonWs r1 with
        | nil => rw [hsk] at h; exact absurd h (by simp)
        | cons c2 t2 =>
          rw [hsk] at h
          by_cases hc2 : c2 = ','
          · subst hc2
            have harm : parseElements f (skipJsonWs t2) = some r := h
            obtain ⟨f3, r3, hv3⟩ := pe_first f (skipJsonWs t2) r harm
            obtain ⟨c3, t3, heq3, hsp3, hbr3, hbk3, hcm3, hws3⟩ :=
              parseValue_start f3 _ r3 hv3
            obtain ⟨w3, hw3, hall3⟩ := skipJsonWs_spec t2
            rw [heq3] at hw3
            have hwbs : wsBracketSplit t2 = none := by
              rw [hw3]
              exact wbs_none w3 c3 t3 (fun y hy => jsonWs_isSpace y (hall3 y hy)) hsp3
                (by rintro (rfl | rfl) <;> simp_all)
            rw [skip_tcSubP_commute_comma r1 t2 hsk hwbs]
            have harm2 := ihE (skipJsonWs t2) r harm
            rw [show tcSubP (skipJsonWs t2) = skipJsonWs (tcSubP t2) by
              rw [heq3, tcSubP_cons_keep c3 t3 hcm3,
                skip_tcSubP_commute t2 c3 t3 heq3 hcm3 hws3]] at harm2
            exact harm2
          · by_cases hb2 : c2 = ']'
            · subst hb2
              have h2 : some t2 = some r := h
              rw [skip_tcSubP_commute r1 ']' t2 hsk (by decide) (by decide)]
              exact congrArg (fun z => some (tcSubP z)) (Option.some.inj h2)
            · exfalso
              split at h
              · next heq => exact absurd (List.cons.inj heq).1 hc2
              · next heq => exact absurd (List.cons.inj heq).1 hb2
              · exact absurd h (by simp)
    · -- parseMembers
      intro u r h
      rw [pm_unfold] at h
      cases u with
      | nil => exact absurd h (by simp)
      | cons c t =>
        by_cases hc : c = '"'
        · subst hc
          have h2 : (match parseStringBody t with
            | none => none
            | some rb =>
              match skipJsonWs rb with
              | ':' :: r2 =>
                match parseValue f (skipJsonWs r2) with
                | none => none
                | some r3 =>
                  match skipJsonWs r3 with
                  | ',' :: r4 => parseMembers f (skipJsonWs r4)
                  | '\x7d' :: r4 => some r4
                  | _ => none
              | _ => none) = some r := h
          cases hsb : parseStringBody t with
          | none => rw [hsb] at h2; exact absurd h2 (by simp)
          | some rb =>
            rw [hsb] at h2
            replace h2 : (match skipJsonWs rb with
              | ':' :: r2 =>
                match parseValue f (skipJsonWs r2) with
                | none => none
                | some r3 =>
                  match skipJsonWs r3 with
                  | ',' :: r4 => parseMembers f (skipJsonWs r4)
                  | '\x7d' :: r4 => some r4
                  | _ => none
              | _ => none) = some r := h2
            have hsb2 := parseStringBody_sim t rb hsb
            rw [tcSubP_cons_keep '"' t (by decide), pm_unfold]
            show (match parseStringBody (tcSubP t) with
              | none => none
              | some rb =>
                match skipJsonWs rb with
                | ':' :: r2 =>
                  match parseValue f (skipJsonWs r2) with
                  | none => none
                  | some r3 =>
                    match skipJsonWs r3 with
                    | ',' :: r4 => parseMembers f (skipJsonWs r4)
                    | '\x7d' :: r4 => some r4
                    | _ => none
                | _ => none) = some (tcSubP r)
            rw [hsb2]
            show (match skipJsonWs (tcSubP rb) with
              | ':' :: r2 =>
                match parseValue f (skipJsonWs r2) with
                | none => none
                | some r3 =>
                  match skipJsonWs r3 with
                  | ',' :: r4 => parseMembers f (skipJsonWs r4)
                  | '\x7d' :: r4 => some r4
                  | _ => none
              | _ => none) = some (tcSubP r)
            cases hsk : skipJsonWs rb with
            | nil => rw [hsk] at h2; exact absurd h2 (by simp)
            | cons c2 t2 =>
              rw [hsk] at h2
              by_cases hc2 : c2 = ':'
              · subst hc2
                have harm : (match parseValue f (skipJsonWs t2) with
                  | none => none
                  | some r3 =>
                    match skipJsonWs r3 with
                    | ',' :: r4 => parseMembers f (skipJsonWs r4)
                    | '\x7d' :: r4 => some r4
                    | _ => none) = some r := h2
                cases hv3 : parseValue f (skipJsonWs t2) with
                | none => rw [hv3] at harm; exact absurd harm (by simp)
                | some r3 =>
                  rw [hv3] at harm
                  replace harm : (match skipJsonWs r3 with
                    | ',' :: r4 => parseMembers f (skipJsonWs r4)
                    | '\x7d' :: r4 => some r4
                    | _ => none) = some r := harm
                  obtain ⟨c3, t3, heq3, hsp3, hbr3, hbk3, hcm3, hws3⟩ :=
                    parseValue_start f _ r3 hv3
                  have hv4 := ihV _ r3 hv3
                  rw [heq3] at hv4
                  rw [skip_tcSubP_commute rb ':' t2 hsk (by decide) (by decide)]
                  show (match parseValue f (skipJsonWs (tcSubP t2)) with
                    | none => none
                    | some r3 =>
                      match skipJsonWs r3 with
                      | ',' :: r4 => parseMembers f (skipJsonWs r4)
                      | '\x7d' :: r4 => some r4
                      | _ => none) = some (tcSubP r)
                  rw [skip_tcSubP_commute t2 c3 t3 heq3 hcm3 hws3]
                  rw [show parseValue f (c3 :: tcSubP t3) = some (tcSubP r3) by
                    rw [← tcSubP_cons_keep c3 t3 hcm3]; exact hv4]
                  show (match skipJsonWs (tcSubP r3) with
                    | ',' :: r4 => parseMembers f (skipJsonWs r4)
                    | '\x7d' :: r4 => some r4
                    | _ => none) = some (tcSubP r)
                  cases hsk3 : skipJsonWs r3 with
                  | nil => rw [hsk3] at harm; exact absurd harm (by simp)
                  | cons c4 t4 =>
                    rw [hsk3] at harm
                    by_cases hc4 : c4 = ','
                    · subst hc4
                      have harm2 : parseMembers f (skipJsonWs t4) = some r := harm
                      obtain ⟨srest2, heqs2⟩ := pm_start f (skipJsonWs t4) r harm2
                      obtain ⟨w4, hw4, hall4⟩ := skipJsonWs_spec t4
                      rw [heqs2] at hw4
                      have hwbs : wsBracketSplit t4 = none := by
                        rw [hw4]
                        exact wbs_none w4 '"' srest2
                          (fun y hy => jsonWs_isSpace y (hall4 y hy)) (by decide) (by decide)
                      rw [skip_tcSubP_commute_comma r3 t4 hsk3 hwbs]
                      have harm3 := ihM (skipJsonWs t4) r harm2
                      rw [show tcSubP (skipJsonWs t4) = skipJsonWs (tcSubP t4) by
                        rw [heqs2, tcSubP_cons_keep '"' srest2 (by decide),
                          skip_tcSubP_commute t4 '"' srest2 heqs2 (by decide) (by decide)]] at harm3
                      exact harm3
                    · by_cases hb4 : c4 = '\x7d'
                      · subst hb4
                        have h3 : some t4 = some r := harm
                        rw [skip_tcSubP_commute r3 '\x7d' t4 hsk3 (by decide) (by decide)]
                        exact congrArg (fun z => some (tcSubP z)) (Option.some.inj h3)
                      · exfalso
                        split at harm
                        · next heq => exact absurd (List.cons.inj heq).1 hc4
                        · next heq => exact absurd (List.cons.inj heq).1 hb4
                        · exact absurd harm (by simp)
              · exfalso
                split at h2
                · next heq => exact absurd (List.cons.inj heq).1 hc2
                · exact absurd h2 (by simp)
        · exfalso
          split at h
          · next heq => exact absurd (List.cons.inj heq).1 hc
          · exact absurd h (by simp)

theorem parseNumber_len_lt (u r : List Char) (h : parseNumber u = some r) :
    r.length < u.length := by
  simp only [parseNumber, Option.bind_eq_some] at h
  obtain ⟨r2, ⟨r1, h1, h2⟩, h3⟩ := h
  have l1 := parseIntPart_len _ _ h1
  have l2 := parseFracPart_len _ _ h2
  have l3 := parseExpPart_len _ _ h3
  have l0 := stripSign_length u
  omega

theorem parse_len : ∀ f : Nat,
    (∀ u r, parseValue f u = some r → r.length < u.length)
    ∧ (∀ u r, parseElements f u = some r → r.length < u.length)
    ∧ (∀ u r, parseMembers f u = some r → r.length < u.length) := by
  intro f
  induction f with
  | zero =>
    refine ⟨?_, ?_, ?_⟩ <;> intro u r h
    · rw [pv_zero] at h; exact absurd h (by simp)
    · rw [pe_zero] at h; exact absurd h (by simp)
    · rw [pm_zero] at h; exact absurd h (by simp)
  | succ f ih =>
    obtain ⟨ihV, ihE, ihM⟩ := ih
    refine ⟨?_, ?_, ?_⟩
    · -- parseValue
      intro u r h
      cases u with
      | nil => rw [pv_nil] at h; exact absurd h (by simp)
      | cons c t =>
        by_cases h1 : c = '"'
        · subst h1
          have h' : parseStringBody t = some r := h
          have hl := parseStringBody_len t r h'
          simp only [List.length_cons]
          omega
        · by_cases h2 : c = 't'
          · subst h2
            have h' : (if prefixChars ['r', 'u', 'e'] t then some (t.drop 3) else none)
                = some r := h
            by_cases hp : prefixChars ['r', 'u', 'e'] t = true
            · rw [if_pos hp] at h'
              obtain rfl := (Option.some.inj h').symm
              have hd := List.length_drop 3 t
              simp only [List.length_cons]
              omega
            · rw [if_neg hp] at h'; exact absurd h' (by simp)
          · by_cases h3 : c = 'f'
            · subst h3
              have h' : (if prefixChars ['a', 'l', 's', 'e'] t then some (t.drop 4) else none)
                  = some r := h
              by_cases hp : prefixChars ['a', 'l', 's', 'e'] t = true
              · rw [if_pos hp] at h'
                obtain rfl := (Option.some.inj h').symm
                have hd := List.length_drop 4 t
                simp only [List.length_cons]
                omega
              · rw [if_neg hp] at h'; exact absurd h' (by simp)
            · by_cases h4 : c = 'n'
              · subst h4
                have h' : (if prefixChars ['u', 'l', 'l'] t then some (t.drop 3) else none)
                    = some r := h
                by_cases hp : prefixChars ['u', 'l', 'l'] t = true
                · rw [if_pos hp] at h'
                  obtain rfl := (Option.some.inj h').symm
                  have hd := List.length_drop 3 t
                  simp only [List.length_cons]
                  omega
                · rw [if_neg hp] at h'; exact absurd h' (by simp)
              · by_cases h5 : c = '['
                · subst h5
                  have h' : (match skipJsonWs t with
                    | ']' :: r2 => some r2
                    | s1 => parseElements f s1) = some r := h
                  have hlsk := skipJsonWs_length t
                  cases hsk : skipJsonWs t with
                  | nil =>
                    rw [hsk] at h'
                    have := ihE [] r h'
                    simp at this
                  | cons c1 t1 =>
                    rw [hsk] at h' hlsk
                    by_cases hc1 : c1 = ']'
                    · subst hc1
                      have h2 : some t1 = some r := h'
                      obtain rfl := (Option.some.inj h2).symm
                      simp only [List.length_cons] at hlsk ⊢
                      omega
                    · have h2 : parseElements f (c1 :: t1) = some r := by
                        split at h'
                        · next heq => exact absurd (List.cons.inj heq).1 hc1
                        · exact h'
                      have := ihE (c1 :: t1) r h2
                      simp only [List.length_cons] at hlsk this ⊢
                      omega
                · by_cases h6 : c = '\x7b'
                  · subst h6
                    have h' : (match skipJsonWs t with
                      | '\x7d' :: r2 => some r2
                      | s1 => parseMembers f s1) = some r := h
                    have hlsk := skipJsonWs_length t
                    cases hsk : skipJsonWs t with
                    | nil =>
                      rw [hsk] at h'
                      have := ihM [] r h'
                      simp at this
                    | cons c1 t1 =>
                      rw [hsk] at h' hlsk
                      by_cases hc1 : c1 = '\x7d'
                      · subst hc1
                        have h2 : some t1 = some r := h'
                        obtain rfl := (Option.some.inj h2).symm
                        simp only [List.length_cons] at hlsk ⊢
                        omega
                      · have h2 : parseMembers f (c1 :: t1) = some r := by
                          split at h'
                          · next heq => exact absurd (List.cons.inj heq).1 hc1
                          · exact h'
                        have := ihM (c1 :: t1) r h2
                        simp only [List.length_cons] at hlsk this ⊢
                        omega
                  · by_cases h7 : c = '-' ∨ jsonDigit c = true
                    · rw [pv_unfold, if_neg h1, if_neg h2, if_neg h3, if_neg h4, if_neg h5,
                        if_neg h6, if_pos h7] at h
                      exact parseNumber_len_lt (c :: t) r h
                    · rw [pv_unfold, if_neg h1, if_neg h2, if_neg h3, if_neg h4, if_neg h5,
                        if_neg h6, if_neg h7] at h
                      exact absurd h (by simp)
    · -- parseElements
      intro u r h
      rw [pe_unfold] at h
      cases hv : parseValue f u with
      | none => rw [hv] at h; exact absurd h (by simp)
      | some r1 =>
        rw [hv] at h
        replace h : (match skipJsonWs r1 with
          | ',' :: r2 => parseElements f (skipJsonWs r2)
          | ']' :: r2 => some r2
          | _ => none) = some r := h
        have hv1 := ihV u r1 hv
        have hsk1 := skipJsonWs_length r1
        cases hsk : skipJsonWs r1 with
        | nil => rw [hsk] at h; exact absurd h (by simp)
        | cons c2 t2 =>
          rw [hsk] at h hsk1
          by_cases hc2 : c2 = ','
          · subst hc2
            have harm : parseElements f (skipJsonWs t2) = some r := h
            have hrec := ihE _ r harm
            have hsk2 := skipJsonWs_length t2
            simp only [List.length_cons] at hsk1
            omega
          · by_cases hb2 : c2 = ']'
            · subst hb2
              have h2 : some t2 = some r := h
              obtain rfl := (Option.some.inj h2).symm
              simp only [List.length_cons] at hsk1
              omega
            · exfalso
              split at h
              · next heq => exact absurd (List.cons.inj heq).1 hc2
              · next heq => exact absurd (List.cons.inj heq).1 hb2
              · exact absurd h (by simp)
    · -- parseMembers
      intro u r h
      rw [pm_unfold] at h
      cases u with
      | nil => exact absurd h (by simp)
      | cons c t =>
        by_cases hc : c = '"'
        · subst hc
          have h2 : (match parseStringBody t with
            | none => none
            | some rb =>
              match skipJsonWs rb with
              | ':' :: r2 =>
                match parseValue f (skipJsonWs r2) with
                | none => none
                | some r3 =>
                  match skipJsonWs r3 with
                  | ',' :: r4 => parseMembers f (skipJsonWs r4)
                  | '\x7d' :: r4 => some r4
                  | _ => none
              | _ => none) = some r := h
          cases hsb : parseStringBody t with
          | none => rw [hsb] at h2; exact absurd h2 (by simp)
          | some rb =>
            rw [hsb] at h2
            replace h2 : (match skipJsonWs rb with
              | ':' :: r2 =>
                match parseValue f (skipJsonWs r2) with
                | none => none
                | some r3 =>
                  match skipJsonWs r3 with
                  | ',' :: r4 => parseMembers f (skipJsonWs r4)
                  | '\x7d' :: r4 => some r4
                  | _ => none
              | _ => none) = some r := h2
            have hlb := parseStringBody_len t rb hsb
            have hsk1 := skipJsonWs_length rb
            cases hsk : skipJsonWs rb with
            | nil => rw [hsk] at h2; exact absurd h2 (by simp)
            | cons c2 t2 =>
              rw [hsk] at h2 hsk1
              by_cases hc2 : c2 = ':'
              · subst hc2
                have harm : (match parseValue f (skipJsonWs t2) with
                  | none => none
                  | some r3 =>
                    match skipJsonWs r3 with
                    | ',' :: r4 => parseMembers f (skipJsonWs r4)
                    | '\x7d' :: r4 => some r4
                    | _ => none) = some r := h2
                have hsk2 := skipJsonWs_length t2
                cases hv3 : parseValue f (skipJsonWs t2) with
                | none => rw [hv3] at harm; exact absurd harm (by simp)
                | some r3 =>
                  rw [hv3] at harm
                  replace harm : (match skipJsonWs r3 with
                    | ',' :: r4 => parseMembers f (skipJsonWs r4)
                    | '\x7d' :: r4 => some r4
                    | _ => none) = some r := harm
                  have hv3l := ihV _ r3 hv3
                  have hsk3l := skipJsonWs_length r3
                  cases hsk3 : skipJsonWs r3 with
                  | nil => rw [hsk3] at harm; exact absurd harm (by simp)
                  | cons c4 t4 =>
                    rw [hsk3] at harm hsk3l
                    by_cases hc4 : c4 = ','
                    · subst hc4
                      have harm2 : parseMembers f (skipJsonWs t4) = some r := harm
                      have hrec := ihM _ r harm2
                      have hsk4 := skipJsonWs_length t4
                      simp only [List.length_cons] at hsk1 hsk3l
                      simp only [List.length_cons]
                      omega
                    · by_cases hb4 : c4 = '\x7d'
                      · subst hb4
                        have h3 : some t4 = some r := harm
                        obtain rfl := (Option.some.inj h3).symm
                        simp only [List.length_cons] at hsk1 hsk3l
                        simp only [List.length_cons]
                        omega
                      · exfalso
                        split at harm
                        · next heq => exact absurd (List.cons.inj heq).1 hc4
                        · next heq => exact absurd (List.cons.inj heq).1 hb4
                        · exact absurd harm (by simp)
              · exfalso
                split at h2
                · next heq => exact absurd (List.cons.inj heq).1 hc2
                · exact absurd h2 (by simp)
        · exfalso
          split at h
          · next heq => exact absurd (List.cons.inj heq).1 hc
          · exact absurd h (by simp)

theorem parse_fuel : ∀ f : Nat,
    (∀ u r, parseValue f u = some r →
      ∀ g, 2 * u.length + 1 ≤ g → parseValue g u = some r)
    ∧ (∀ u r, parseElements f u = some r →
      ∀ g, 2 * u.length + 2 ≤ g → parseElements g u = some r)
    ∧ (∀ u r, parseMembers f u = some r →
      ∀ g, 2 * u.length + 2 ≤ g → parseMembers g u = some r) := by
  intro f
  induction f with
  | zero =>
    refine ⟨?_, ?_, ?_⟩ <;> intro u r h
    · rw [pv_zero] at h; exact absurd h (by simp)
    · rw [pe_zero] at h; exact absurd h (by simp)
    · rw [pm_zero] at h; exact absurd h (by simp)
  | succ f ih =>
    obtain ⟨ihV, ihE, ihM⟩ := ih
    refine ⟨?_, ?_, ?_⟩
    · -- parseValue
      intro u r h g hg
      cases u with
      | nil => rw [pv_nil] at h; exact absurd h (by simp)
      | cons c t =>
        simp only [List.length_cons] at hg
        cases g with
        | zero => omega
        | succ g1 =>
          by_cases h1 : c = '"'
          · subst h1; exact h
          · by_cases h2 : c = 't'
            · subst h2; exact h
            · by_cases h3 : c = 'f'
              · subst h3; exact h
              · by_cases h4 : c = 'n'
                · subst h4; exact h
                · by_cases h5 : c = '['
                  · subst h5
                    have h' : (match skipJsonWs t with
                      | ']' :: r2 => some r2
                      | s1 => parseElements f s1) = some r := h
                    show (match skipJsonWs t with
                      | ']' :: r2 => some r2
                      | s1 => parseElements g1 s1) = some r
                    have hlsk := skipJsonWs_length t
                    cases hsk : skipJsonWs t with
                    | nil =>
                      rw [hsk] at h'
                      have := (parse_len f).2.1 [] r h'
                      simp at this
                    | cons c1 t1 =>
                      rw [hsk] at h' hlsk
                      by_cases hc1 : c1 = ']'
                      · subst hc1; exact h'
                      · have h2 : parseElements f (c1 :: t1) = some r := by
                          split at h'
                          · next heq => exact absurd (List.cons.inj heq).1 hc1
                          · exact h'
                        have h3 : parseElements g1 (c1 :: t1) = some r := by
                          apply ihE (c1 :: t1) r h2 g1
                          simp only [List.length_cons] at hlsk ⊢
                          omega
                        split
                        · next heq => exact absurd (List.cons.inj heq).1 hc1
                        · exact h3
                  · by_cases h6 : c = '\x7b'
                    · subst h6
                      have h' : (match skipJsonWs t with
                        | '\x7d' :: r2 => some r2
                        | s1 => parseMembers f s1) = some r := h
                      show (match skipJsonWs t with
                        | '\x7d' :: r2 => some r2
                        | s1 => parseMembers g1 s1) = some r
                      have hlsk := skipJsonWs_length t
                      cases hsk : skipJsonWs t with
                      | nil =>
                        rw [hsk] at h'
                        have := (parse_len f).2.2 [] r h'
                        simp at this
                      | cons c1 t1 =>
                        rw [hsk] at h' hlsk
                        by_cases hc1 : c1 = '\x7d'
                        · subst hc1; exact h'
                        · have h2 : parseMembers f (c1 :: t1) = some r := by
                            split at h'
                            · next heq => exact absurd (List.cons.inj heq).1 hc1
                            · exact h'
                          have h3 : parseMembers g1 (c1 :: t1) = some r := by
                            apply ihM (c1 :: t1) r h2 g1
                            simp only [List.length_cons] at hlsk ⊢
                            omega
                          split
                          · next heq => exact absurd (List.cons.inj heq).1 hc1
                          · exact h3
                    · by_cases h7 : c = '-' ∨ jsonDigit c = true
                      · rw [pv_unfold, if_neg h1, if_neg h2, if_neg h3, if_neg h4, if_neg h5,
                          if_neg h6, if_pos h7] at h
                        rw [pv_unfold, if_neg h1, if_neg h2, if_neg h3, if_neg h4, if_neg h5,
                          if_neg h6, if_pos h7]
                        exact h
                      · rw [pv_unfold, if_neg h1, if_neg h2, if_neg h3, if_neg h4, if_neg h5,
                          if_neg h6, if_neg h7] at h
                        exact absurd h (by simp)
    · -- parseElements
      intro u r h g hg
      rw [pe_unfold] at h
      cases g with
      | zero => omega
      | succ g1 =>
        rw [pe_unfold]
        cases hv : parseValue f u with
        | none => rw [hv] at h; exact absurd h (by simp)
        | some r1 =>
          rw [hv] at h
          replace h : (match skipJsonWs r1 with
            | ',' :: r2 => parseElements f (skipJsonWs r2)
            | ']' :: r2 => some r2
            | _ => none) = some r := h
          have hv1 := (parse_len f).1 u r1 hv
          have hv' : parseValue g1 u = some r1 := ihV u r1 hv g1 (by omega)
          rw [hv']
          show (match skipJsonWs r1 with
            | ',' :: r2 => parseElements g1 (skipJsonWs r2)
            | ']' :: r2 => some r2
            | _ => none) = some r
          have hsk1 := skipJsonWs_length r1
          cases hsk : skipJsonWs r1 with
          | nil => rw [hsk] at h; exact absurd h (by simp)
          | cons c2 t2 =>
            rw [hsk] at h hsk1
            by_cases hc2 : c2 = ','
            · subst hc2
              have harm : parseElements f (skipJsonWs t2) = some r := h
              have hsk2 := skipJsonWs_length t2
              have hrec : parseElements g1 (skipJsonWs t2) = some r := by
                apply ihE _ r harm g1
                simp only [List.length_cons] at hsk1
                omega
              exact hrec
            · by_cases hb2 : c2 = ']'
              · subst hb2; exact h
              · exfalso
                split at h
                · next heq => exact absurd (List.cons.inj heq).1 hc2
                · next heq => exact absurd (List.cons.inj heq).1 hb2
                · exact absurd h (by simp)
    · -- parseMembers
      intro u r h g hg
      rw [pm_unfold] at h
      cases g with
      | zero => omega
      | succ g1 =>
        cases u with
        | nil => exact absurd h (by simp)
        | cons c t =>
          simp only [List.length_cons] at hg
          by_cases hc : c = '"'
          · subst hc
            have h2 : (match parseStringBody t with
              | none => none
              | some rb =>
                match skipJsonWs rb with
                | ':' :: r2 =>
                  match parseValue f (skipJsonWs r2) with
                  | none => none
                  | some r3 =>
                    match skipJsonWs r3 with
                    | ',' :: r4 => parseMembers f (skipJsonWs r4)
                    | '\x7d' :: r4 => some r4
                    | _ => none
                | _ => none) = some r := h
            rw [pm_unfold]
            show (match parseStringBody t with
              | none => none
              | some rb =>
                match skipJsonWs rb with
                | ':' :: r2 =>
                  match parseValue g1 (skipJsonWs r2) with
                  | none => none
                  | some r3 =>
                    match skipJsonWs r3 with
                    | ',' :: r4 => parseMembers g1 (skipJsonWs r4)
                    | '\x7d' :: r4 => some r4
                    | _ => none
                | _ => none) = some r
            cases hsb : parseStringBody t with
            | none => rw [hsb] at h2; exact absurd h2 (by simp)
            | some rb =>
              rw [hsb] at h2
              replace h2 : (match skipJsonWs rb with
                | ':' :: r2 =>
                  match parseValue f (skipJsonWs r2) with
                  | none => none
                  | some r3 =>
                    match skipJsonWs r3 with
                    | ',' :: r4 => parseMembers f (skipJsonWs r4)
                    | '\x7d' :: r4 => some r4
                    | _ => none
                | _ => none) = some r := h2
              show (match skipJsonWs rb with
                | ':' :: r2 =>
                  match parseValue g1 (skipJsonWs r2) with
                  | none => none
                  | some r3 =>
                    match skipJsonWs r3 with
                    | ',' :: r4 => parseMembers g1 (skipJsonWs r4)
                    | '\x7d' :: r4 => some r4
                    | _ => none
                | _ => none) = some r
              have hlb := parseStringBody_len t rb hsb
              have hsk1 := skipJsonWs_length rb
              cases hsk : skipJsonWs rb with
              | nil => rw [hsk] at h2; exact absurd h2 (by simp)
              | cons c2 t2 =>
                rw [hsk] at h2 hsk1
                by_cases hc2 : c2 = ':'
                · subst hc2
                  have harm : (match parseValue f (skipJsonWs t2) with
                    | none => none
                    | some r3 =>
                      match skipJsonWs r3 with
                      | ',' :: r4 => parseMembers f (skipJsonWs r4)
                      | '\x7d' :: r4 => some r4
                      | _ => none) = some r := h2
                  show (match parseValue g1 (skipJsonWs t2) with
                    | none => none
                    | some r3 =>
                      match skipJsonWs r3 with
                      | ',' :: r4 => parseMembers g1 (skipJsonWs r4)
                      | '\x7d' :: r4 => some r4
                      | _ => none) = some r
                  have hsk2 := skipJsonWs_length t2
                  simp only [List.length_cons] at hsk1
                  cases hv3 : parseValue f (skipJsonWs t2) with
                  | none => rw [hv3] at harm; exact absurd harm (by simp)
                  | some r3 =>
                    rw [hv3] at harm
                    replace harm : (match skipJsonWs r3 with
                      | ',' :: r4 => parseMembers f (skipJsonWs r4)
                      | '\x7d' :: r4 => some r4
                      | _ => none) = some r := harm
                    have hv3l := (parse_len f).1 _ r3 hv3
                    have hv4 : parseValue g1 (skipJsonWs t2) = some r3 := by
                      apply ihV _ r3 hv3 g1
                      omega
                    rw [hv4]
                    show (match skipJsonWs r3 with
                      | ',' :: r4 => parseMembers g1 (skipJsonWs r4)
                      | '\x7d' :: r4 => some r4
                      | _ => none) = some r
                    have hsk3l := skipJsonWs_length r3
                    cases hsk3 : skipJsonWs r3 with
                    | nil => rw [hsk3] at harm; exact absurd harm (by simp)
                    | cons c4 t4 =>
                      rw [hsk3] at harm hsk3l
                      by_cases hc4 : c4 = ','
                      · subst hc4
                        have harm2 : parseMembers f (skipJsonWs t4) = some r := harm
                        have hsk4 := skipJsonWs_length t4
                        have hrec : parseMembers g1 (skipJsonWs t4) = some r := by
                          apply ihM _ r harm2 g1
                          simp only [List.length_cons] at hsk3l
                          omega
                        exact hrec
                      · by_cases hb4 : c4 = '\x7d'
                        · subst hb4; exact harm
                        · exfalso
                          split at harm
                          · next heq => exact absurd (List.cons.inj heq).1 hc4
                          · next heq => exact absurd (List.cons.inj heq).1 hb4
                          · exact absurd harm (by simp)
                · exfalso
                  split at h2
                  · next heq => exact absurd (List.cons.inj heq).1 hc2
                  · exact absurd h2 (by simp)
          · exfalso
            split at h
            · next heq => exact absurd (List.cons.inj heq).1 hc
            · exact absurd h (by simp)

theorem tcSubP_id_of_no_comma (l : List Char) (h : ∀ c ∈ l, c ≠ ',') : tcSubP l = l := by
  have h2 := tcSubP_copy l [] h
  have h3 : tcSubP ([] : List Char) = [] := rfl
  rw [List.append_nil, h3, List.append_nil] at h2
  exact h2

theorem comment_stage_id (s : String) (h1 : hasSubstr "//".data s.data = false) :
    joinLines ((splitLines s.data).map stripLineChars) = s.data := by
  have hmap : (splitLines s.data).map stripLineChars = (splitLines s.data).map id := by
    apply List.map_congr_left
    intro line hline
    simp [stripLine_id line (no_substr_lines _ _ h1 line hline)]
  rw [hmap, List.map_id, join_split]

/-- C9 as amended: for every input text that parses as strict JSON,
hence lies in the JSON superset dialect, and contains the comment
marker nowhere, the preprocessing step of fetch_default_json returns
text that still parses as strict JSON: stripping comments is the
identity on such input, and the trailing-comma substitution preserves
strict JSON acceptance because in accepted text the substituted
pattern only ever matches inside string literals. -/
theorem preprocess_c9 :
    ∀ s : String, isStrictJson s = true → hasSubstr "//".data s.data = false →
      isStrictJson (preprocess s) = true := by
  intro s hjson h1
  have hclean : preprocess s = String.mk (tcSubP s.data) := by
    show String.mk (tcSub (joinLines ((splitLines s.data).map stripLineChars))) = _
    rw [comment_stage_id s h1, tcSub_eq_pointwise s.data]
  rw [hclean]
  replace hjson : (match parseValue (4 * (skipJsonWs s.data).length + 4) (skipJsonWs s.data) with
    | some q => (skipJsonWs q).isEmpty
    | none => false) = true := hjson
  show (match parseValue (4 * (skipJsonWs (tcSubP s.data)).length + 4)
      (skipJsonWs (tcSubP s.data)) with
    | some q => (skipJsonWs q).isEmpty
    | none => false) = true
  cases hv : parseValue (4 * (skipJsonWs s.data).length + 4) (skipJsonWs s.data) with
  | none => rw [hv] at hjson; exact absurd hjson (by simp)
  | some r =>
    rw [hv] at hjson
    replace hjson : (skipJsonWs r).isEmpty = true := hjson
    obtain ⟨c0, t0, heq0, hsp0, hbr0, hbk0, hcm0, hws0⟩ := parseValue_start _ _ r hv
    have hcomm : skipJsonWs (tcSubP s.data) = tcSubP (skipJsonWs s.data) := by
      rw [heq0, skip_tcSubP_commute s.data c0 t0 heq0 hcm0 hws0, tcSubP_cons_keep c0 t0 hcm0]
    have hsim := (parse_sim (4 * (skipJsonWs s.data).length + 4)).1 (skipJsonWs s.data) r hv
    have hade : parseValue (4 * (tcSubP (skipJsonWs s.data)).length + 4)
        (tcSubP (skipJsonWs s.data)) = some (tcSubP r) :=
      (parse_fuel _).1 _ _ hsim _ (by omega)
    rw [hcomm, hade]
    show (skipJsonWs (tcSubP r)).isEmpty = true
    have hre : skipJsonWs r = [] := by simpa using hjson
    have hall := skipJsonWs_nil_all r hre
    have hid : tcSubP r = r := tcSubP_id_of_no_comma r (fun c hc => jsonWs_ne_comma c (hall c hc))
    rw [hid, hre]
    rfl

/-- Witness for C9 as amended, at a strict JSON array whose one string
element contains a comma followed by a space and a closing bracket, so
the substitution rewrites the text. -/
theorem preprocess_c9_witness :
    isStrictJson "[\", ]\"]" = true
    ∧ hasSubstr "//".data "[\", ]\"]".data = false
    ∧ isStrictJson (preprocess "[\", ]\"]") = true :=
  ⟨by decide, by decide, preprocess_c9 "[\", ]\"]" (by decide) (by decide)⟩

end ZedRef
